import Mathlib

/-!
# Covenant evaluation engine — shallow embedding and verification

This file embeds the Go evaluation engine of the Covenant proof of concept
(`executor/engine/engine.go`, `factset.go`, `types.go`) as executable Lean
definitions, and proves or refutes the specification claims about it.

Modelling conventions:
* Go `any` values flowing through the engine (JSON scalars, lists, string-keyed
  maps) are modelled by the inductive type `Value`; the Go `nil` interface is
  `Value.vNull`.  Numeric values are modelled as integers (`vInt`): the engine's
  contracts and ports traffic in integral JSON numbers, and Go's `%v` formatting
  of such numbers agrees with decimal integer formatting.
* Go maps used as string-keyed dictionaries (`FactSet.facts`, request input)
  are association lists; an update conses the new binding, and lookups take the
  most recent binding, which matches Go map overwrite semantics.
* Nondeterministic Go map iteration order is made explicit: functions that
  range over a map take the iteration order as a list argument, and theorems
  quantify over it where the order can matter.
* Recursions that Go bounds by a `visited` set are given explicit fuel; the
  fuel is chosen large enough that the zero-fuel branch is unreachable, which
  the termination lemmas establish.
-/

namespace Covenant

/-- `strings.Split(s, ".")` accumulator: split a character list at dots. -/
def splitDotAux : List Char → String → List String
  | [], acc => [acc]
  | c :: rest, acc =>
    if c = '.' then acc :: splitDotAux rest ""
    else splitDotAux rest (acc.push c)

/-- Go `strings.Split(s, ".")` (the engine only ever splits on a dot). -/
def splitDot (s : String) : List String := splitDotAux s.data ""

/-- Byte-lexicographic order on character lists (Go string `<=`). -/
def charListLe : List Char → List Char → Bool
  | [], _ => true
  | _ :: _, [] => false
  | a :: as, b :: bs =>
    if a.toNat < b.toNat then true
    else if b.toNat < a.toNat then false
    else charListLe as bs

/-- Go string order, used by `fmt` to sort map keys. -/
def strLe (a b : String) : Bool := charListLe a.data b.data

/-- Insertion preserving `strLe` order. -/
def insertSorted (s : String) : List String → List String
  | [] => [s]
  | x :: xs => if strLe s x then s :: x :: xs else x :: insertSorted s xs

/-- Sorting by `strLe` (Go `fmt` prints map entries with sorted keys). -/
def sortStrings : List String → List String
  | [] => []
  | x :: xs => insertSorted x (sortStrings xs)

/-- Go `strings.HasPrefix(s, "port:")`. -/
def isPortSource (s : String) : Bool := s.data.take 5 = "port:".data

/-- Runtime values (Go `any` restricted to what the engine traffics in). -/
inductive Value : Type where
  | vNull : Value
  | vBool : Bool → Value
  | vInt : Int → Value
  | vStr : String → Value
  | vList : List Value → Value
  | vObj : List (String × Value) → Value

mutual

/-- Go `fmt.Sprintf("%v", x)` on the values of `Value`.
`nil` prints `<nil>`, booleans print `true`/`false`, integers print in
decimal, strings print verbatim, slices print space-separated in brackets,
and maps print `map[k:v ...]` with keys in sorted order. -/
def format : Value → String
  | .vNull => "<nil>"
  | .vBool true => "true"
  | .vBool false => "false"
  | .vInt n => toString n
  | .vStr s => s
  | .vList xs => "[" ++ String.intercalate " " (formatList xs) ++ "]"
  | .vObj fields =>
      "map[" ++ String.intercalate " " (sortStrings (formatObj fields)) ++ "]"

/-- `%v` formatting of each element of a slice. -/
def formatList : List Value → List String
  | [] => []
  | x :: xs => format x :: formatList xs

/-- `k:v` formatting of each map entry. -/
def formatObj : List (String × Value) → List String
  | [] => []
  | (k, v) :: rest => (k ++ ":" ++ format v) :: formatObj rest

end

/-- Go `toFloat`: extracts a numeric value.  Numerics are modelled as `Int`
(see the header comment); non-numeric values yield `none` exactly as the Go
function returns `ok = false` for them. -/
def toFloat : Value → Option Int
  | .vInt n => some n
  | _ => none

/-- Go `applyOp`: the leaf comparison used by rule conditions.
`equals` compares default (`%v`) string formatting; the numeric comparisons
require both sides to be numeric and otherwise yield false; any other operator
string yields false. -/
def applyOp (op : String) (left right : Value) : Bool :=
  if op = "equals" then format left == format right
  else if op = "greater_than" then
    match toFloat left, toFloat right with
    | some fl, some fr => fl > fr
    | _, _ => false
  else if op = "less_than" then
    match toFloat left, toFloat right with
    | some fl, some fr => fl < fr
    | _, _ => false
  else false

/-- A fact set: name → value association list (most recent binding wins,
mirroring Go map overwrite). -/
def FactSet := List (String × Value)

/-- Go `FactSet.Set`. -/
def FactSet.set (fs : FactSet) (name : String) (val : Value) : FactSet :=
  (name, val) :: fs

/-- Go `FactSet.Get`: exact-name lookup; `none` when the fact is absent. -/
def FactSet.get (fs : FactSet) (name : String) : Option Value :=
  match fs with
  | [] => none
  | (k, v) :: rest => if k = name then some v else FactSet.get rest name

/-- Go `navigatePath`: drill into nested maps by key segments. -/
def navigatePath : Value → List String → Option Value
  | v, [] => some v
  | .vObj fields, part :: rest =>
      match (FactSet.get fields part) with
      | some v => navigatePath v rest
      | none => none
  | _, _ :: _ => none

/-- The dotted prefixes of `parts`, longest first, each paired with the
remaining path segments: Go's `for i := len(parts)-1; i > 0; i--` loop over
`strings.Join(parts[:i], ".")`. -/
def dottedSplits (parts : List String) : List (String × List String) :=
  (List.range parts.length).reverse.filterMap (fun i =>
    if i > 0 then some (String.intercalate "." (parts.take i), parts.drop i)
    else none)

/-- The first dotted prefix of the path that names a stored fact, with the
stored value and the remaining segments.  Once a stored prefix is found the
Go loop returns unconditionally, so shorter prefixes are not tried. -/
def findStored (fs : FactSet) : List (String × List String) → Option (Value × List String)
  | [] => none
  | (pfx, rest) :: more =>
      match fs.get pfx with
      | some v => some (v, rest)
      | none => findStored fs more

/-- Go `FactSet.GetPath`: exact match first, then the longest stored dotted
prefix, navigating into its value with the rest of the path. -/
def FactSet.getPath (fs : FactSet) (path : String) : Option Value :=
  match fs.get path with
  | some v => some v
  | none =>
      match findStored fs (dottedSplits (splitDot path)) with
      | some (v, rest) => navigatePath v rest
      | none => none

/-- Go `Condition`: a struct whose fields encode a recursive condition tree.
All fields are physically present on every node; `evalCondition` decides the
node's meaning by which fields are populated, in the Go switch's order. -/
inductive Condition : Type where
  | mk : (all : List Condition) → (anyc : List Condition) → (notc : Option Condition) →
      (fact : String) → (equals : Option Value) → (greaterThan : Option Value) →
      (lessThan : Option Value) → (inList : List Value) → Condition

def Condition.all : Condition → List Condition
  | .mk a _ _ _ _ _ _ _ => a

def Condition.anyc : Condition → List Condition
  | .mk _ a _ _ _ _ _ _ => a

def Condition.notc : Condition → Option Condition
  | .mk _ _ n _ _ _ _ _ => n

def Condition.fact : Condition → String
  | .mk _ _ _ f _ _ _ _ => f

def Condition.equals : Condition → Option Value
  | .mk _ _ _ _ e _ _ _ => e

def Condition.greaterThan : Condition → Option Value
  | .mk _ _ _ _ _ g _ _ => g

def Condition.lessThan : Condition → Option Value
  | .mk _ _ _ _ _ _ l _ => l

def Condition.inList : Condition → List Value
  | .mk _ _ _ _ _ _ _ i => i

/-- A leaf condition: only `fact` and at most one comparison field set. -/
def Condition.leaf (fact : String) (equals greaterThan lessThan : Option Value)
    (inList : List Value) : Condition :=
  .mk [] [] none fact equals greaterThan lessThan inList

mutual

/-- Go `evalCondition`: evaluates a condition tree against the fact set.
The switch tries `all`, then `any`, then `not`, then a fact leaf; a leaf
tries `equals`, `greater_than`, `less_than`, then `in`; anything else —
including a leaf with no comparison set and a fully empty node — is true.
An absent fact resolves to the nil value (`vNull`). -/
def evalCondition (cond : Condition) (facts : FactSet) : Bool :=
  match cond with
  | .mk all anyc notc fact equals greaterThan lessThan inList =>
    if all.length > 0 then evalCondAll all facts
    else if anyc.length > 0 then evalCondAny anyc facts
    else
      match notc with
      | some sub => !(evalCondition sub facts)
      | none =>
        if fact ≠ "" then
          let val := (facts.getPath fact).getD .vNull
          match equals with
          | some e => applyOp "equals" val e
          | none =>
            match greaterThan with
            | some g => applyOp "greater_than" val g
            | none =>
              match lessThan with
              | some l => applyOp "less_than" val l
              | none =>
                if inList.length > 0 then inList.any (fun v => applyOp "equals" val v)
                else true
        else true

/-- Conjunction over sub-conditions (the `all` combinator). -/
def evalCondAll (conds : List Condition) (facts : FactSet) : Bool :=
  match conds with
  | [] => true
  | c :: rest => evalCondition c facts && evalCondAll rest facts

/-- Disjunction over sub-conditions (the `any` combinator). -/
def evalCondAny (conds : List Condition) (facts : FactSet) : Bool :=
  match conds with
  | [] => false
  | c :: rest => evalCondition c facts || evalCondAny rest facts

end

/-- Go `DerivationArg`: a literal value, a fact reference, or (inside `and`)
an inline `{fact, op, value}` condition. -/
structure DerivationArg : Type where
  fact : String
  op : String
  value : Option Value

instance : Inhabited DerivationArg := ⟨⟨"", "", none⟩⟩

/-- Go `Derivation`: a function name with ordered arguments. -/
structure Derivation : Type where
  fn : String
  args : List DerivationArg

/-- Go `DerivedFactDef`. -/
structure DerivedFactDef : Type where
  derivation : Derivation

/-- Go `evalDerivation`'s `getArg`: a fact reference resolves through
`GetPath` (missing → nil); a literal yields its value (absent → nil). -/
def getArgVal (facts : FactSet) (arg : DerivationArg) : Value :=
  if arg.fact ≠ "" then (facts.getPath arg.fact).getD .vNull
  else arg.value.getD .vNull

/-- Go `evalDerivation`: evaluates one derivation against the fact set.
Numeric comparisons yield false unless both sides are numeric; `equals`
compares `%v` formatting; `and`/`or`/`not` treat non-boolean argument values
per the Go type switches; an unknown function name is an error. -/
def evalDerivation (d : Derivation) (facts : FactSet) : Except String Value :=
  if d.fn = "greater_than" then
    if d.args.length < 2 then .ok (.vBool false)
    else
      match toFloat (getArgVal facts d.args[0]!), toFloat (getArgVal facts d.args[1]!) with
      | some fa, some fb => .ok (.vBool (fa > fb))
      | _, _ => .ok (.vBool false)
  else if d.fn = "greater_or_equal" then
    if d.args.length < 2 then .ok (.vBool false)
    else
      match toFloat (getArgVal facts d.args[0]!), toFloat (getArgVal facts d.args[1]!) with
      | some fa, some fb => .ok (.vBool (fa ≥ fb))
      | _, _ => .ok (.vBool false)
  else if d.fn = "less_than" then
    if d.args.length < 2 then .ok (.vBool false)
    else
      match toFloat (getArgVal facts d.args[0]!), toFloat (getArgVal facts d.args[1]!) with
      | some fa, some fb => .ok (.vBool (fa < fb))
      | _, _ => .ok (.vBool false)
  else if d.fn = "equals" then
    if d.args.length < 2 then .ok (.vBool false)
    else .ok (.vBool (format (getArgVal facts d.args[0]!) == format (getArgVal facts d.args[1]!)))
  else if d.fn = "and" then
    .ok (.vBool (d.args.all (fun arg =>
      if arg.fact ≠ "" ∧ arg.op ≠ "" then
        applyOp arg.op ((facts.getPath arg.fact).getD .vNull) (arg.value.getD .vNull)
      else
        match getArgVal facts arg with
        | .vBool false => false
        | _ => true)))
  else if d.fn = "or" then
    .ok (.vBool (d.args.any (fun arg =>
      match getArgVal facts arg with
      | .vBool true => true
      | _ => false)))
  else if d.fn = "not" then
    if d.args.length = 0 then .ok (.vBool true)
    else
      match getArgVal facts d.args[0]! with
      | .vBool b => .ok (.vBool !b)
      | _ => .ok (.vBool false)
  else .error ("unknown derivation function: " ++ d.fn)

/-- Go `ErrorEnvelope`. -/
structure ErrorEnvelope : Type where
  code : String
  message : String
  httpStatus : Int
  category : String
  retryable : Bool
  suggestion : String
deriving DecidableEq, Repr

/-- Go `DenyVerdict`. -/
structure DenyVerdict : Type where
  code : String
  reason : String
  error : ErrorEnvelope
deriving DecidableEq, Repr

/-- Go `EscalateVerdict`. -/
structure EscalateVerdict : Type where
  queue : String
  reason : String
deriving DecidableEq, Repr

/-- Go `RequireVerdict`. -/
structure RequireVerdict : Type where
  conditions : List String
  reason : String
deriving DecidableEq, Repr

/-- Go `FlagVerdict`. -/
structure FlagVerdict : Type where
  code : String
  reason : String
deriving DecidableEq, Repr

/-- Go `VerdictDef`: exactly one of the four pointers is expected to be set;
`evaluateRules` checks them in deny/escalate/require/flag order. -/
structure VerdictDef : Type where
  deny : Option DenyVerdict
  escalate : Option EscalateVerdict
  require : Option RequireVerdict
  flag : Option FlagVerdict
deriving DecidableEq, Repr

/-- Go `RuleDef`. -/
structure RuleDef : Type where
  id : String
  appliesTo : List String
  whenCond : Condition
  verdict : VerdictDef

/-- Go `OperationDef`. -/
structure OperationDef : Type where
  constrainedBy : List String
deriving DecidableEq, Repr

instance : Inhabited OperationDef := ⟨⟨[]⟩⟩

/-- Go `FactDef`. -/
structure FactDef : Type where
  source : String
  required : Bool
  onMissing : String
deriving DecidableEq, Repr

/-- Go `Contract`: maps are association lists; the entity machines are not
consulted by the evaluation paths under verification and are omitted. -/
structure Contract : Type where
  facts : List (String × FactDef)
  derivedFacts : List (String × DerivedFactDef)
  rules : List RuleDef
  operations : List (String × OperationDef)

/-- Association-list lookup (first binding wins), mirroring Go map indexing. -/
def lookupA {α : Type} : List (String × α) → String → Option α
  | [], _ => none
  | (k, v) :: rest, name => if k = name then some v else lookupA rest name

/-- Go `Verdict`: a resolved verdict from rule evaluation. -/
structure Verdict : Type where
  vtype : String
  code : String
  reason : String
  error : Option ErrorEnvelope
  queue : String
deriving DecidableEq, Repr

/-- Go `Request`. -/
structure Request : Type where
  operation : String
  input : List (String × Value)
  dryRun : Bool
  contractETag : String

/-- Go `Response`.  Zero values of omitted Go fields are `none` / `[]` /
`false`. -/
structure Response : Type where
  outcome : String
  output : Option (List (String × Value))
  error : Option ErrorEnvelope
  verdicts : List Verdict
  factSnapshot : Option FactSet
  dryRun : Bool

/-- Go `evaluateRules`: every rule listed in the operation's `constrainedBy`
whose condition matches contributes one verdict, built from the first
populated field of its `VerdictDef` in deny/escalate/require/flag order.
Note the `require` verdict built here carries only the reason — the rule's
required conditions are dropped. -/
def evaluateRules (c : Contract) (operation : String) (facts : FactSet) : List Verdict :=
  let op := (lookupA c.operations operation).getD default
  (c.rules.filter (fun r => r.id ∈ op.constrainedBy ∧ evalCondition r.whenCond facts)).filterMap
    (fun r =>
      match r.verdict.deny with
      | some d => some ⟨"deny", d.code, d.reason, some d.error, ""⟩
      | none =>
        match r.verdict.escalate with
        | some es => some ⟨"escalate", "", es.reason, none, es.queue⟩
        | none =>
          match r.verdict.require with
          | some rq => some ⟨"require", "", rq.reason, none, ""⟩
          | none =>
            match r.verdict.flag with
            | some f => some ⟨"flag", f.code, f.reason, none, ""⟩
            | none => none)

/-- Go `resolveVerdicts`' priority map: `deny > escalate > require > flag`,
anything else 0. -/
def priority (t : String) : Nat :=
  if t = "deny" then 4
  else if t = "escalate" then 3
  else if t = "require" then 2
  else if t = "flag" then 1
  else 0

/-- Go `resolveVerdicts`: a single pass keeping the first verdict whose
priority strictly exceeds the current best; the result is the first verdict
of the highest-priority type, or `none` for an empty list. -/
def resolveVerdicts (verdicts : List Verdict) : Option Verdict :=
  verdicts.foldl
    (fun best v =>
      match best with
      | none => some v
      | some b => if priority v.vtype > priority b.vtype then some v else some b)
    none

/-- Go `dryRunOutcome`. -/
def dryRunOutcome : Option Verdict → String
  | none => "would_execute"
  | some v =>
    if v.vtype = "deny" then "would_deny"
    else if v.vtype = "escalate" then "would_escalate"
    else if v.vtype = "require" then "would_require"
    else "would_execute_with_flags"

mutual

/-- Go `collectFromCondition`: every `fact` reference in a condition tree, in
traversal order (own fact, then `all` children, `any` children, `not` child). -/
def collectFacts : Condition → List String
  | .mk all anyc notc fact _ _ _ _ =>
    (if fact ≠ "" then [fact] else []) ++ collectFactsList all ++ collectFactsList anyc ++
      (match notc with
       | some sub => collectFacts sub
       | none => [])

/-- `collectFromCondition` over a list of sub-conditions. -/
def collectFactsList : List Condition → List String
  | [] => []
  | c :: rest => collectFacts c ++ collectFactsList rest

end

/-- The first dotted prefix of the path known to the contract, tagged `true`
when it names a base fact and `false` when it names a derived fact — the
inner loop of Go `neededBaseFacts.addPath`, base facts checked first at each
length. -/
def firstKnownPfx (c : Contract) : List (String × List String) → Option (String × Bool)
  | [] => none
  | (pfx, _) :: more =>
      if (lookupA c.facts pfx).isSome then some (pfx, true)
      else if (lookupA c.derivedFacts pfx).isSome then some (pfx, false)
      else firstKnownPfx c more

/-- Set-style insertion: Go's `needed[path] = true` on a map, enumerated in
first-insertion order. -/
def insertName (l : List String) (x : String) : List String :=
  if x ∈ l then l else l ++ [x]

/-- Go `neededBaseFacts.addPath`: resolves one fact reference to base facts.
State is `(needed, derivedVisited)`.  An exact base fact is added; a derived
fact folds over its derivation's fact arguments (cycle-guarded by
`derivedVisited`); otherwise the longest known dotted prefix is resolved.
Fuel replaces the Go closure's implicit termination via `derivedVisited`. -/
def addPath (c : Contract) : Nat → String → List String × List String → List String × List String
  | 0, _, st => st
  | fuel + 1, path, (needed, dv) =>
    match lookupA c.facts path with
    | some _ => (insertName needed path, dv)
    | none =>
      match lookupA c.derivedFacts path with
      | some df =>
          if path ∈ dv then (needed, dv)
          else df.derivation.args.foldl
            (fun st arg => if arg.fact ≠ "" then addPath c fuel arg.fact st else st)
            (needed, dv ++ [path])
      | none =>
        match firstKnownPfx c (dottedSplits (splitDot path)) with
        | some (pfx, true) => (insertName needed pfx, dv)
        | some (pfx, false) => addPath c fuel pfx (needed, dv)
        | none => (needed, dv)

/-- Go `neededBaseFacts`: the base facts referenced (directly, through
derived facts, or through dotted paths) by the rules constraining the
operation, enumerated in first-insertion order. -/
def neededBaseFacts (c : Contract) (operation : String) : List String :=
  match lookupA c.operations operation with
  | none => []
  | some op =>
    let paths := op.constrainedBy.flatMap (fun rid =>
      (c.rules.filter (fun r => r.id = rid)).flatMap (fun r => collectFacts r.whenCond))
    (paths.foldl (fun st p => addPath c (2 * c.derivedFacts.length + 2) p st) ([], [])).1

/-- Go `portName`: strips the leading `port:` tag from a fact source. -/
def portName (source : String) : String :=
  if isPortSource source then source.drop 5 else source

/-- Gather failure: a required input fact missing from the request (a plain
Go error), or Go's `factError` with its fact, reason and outcome. -/
inductive GatherErr : Type where
  | requiredMissing : String → GatherErr
  | factErr : String → String → String → GatherErr

/-- The synchronous first pass of Go `gatherFacts`: walks the needed names in
map-iteration order, storing input facts (failing fast on a required one
missing), storing the hard-coded `user.roles` context fact, and launching one
fetch per port-sourced fact.  Returns (required-missing failure, facts so
far, port facts launched in order). -/
def gatherPhase1 (c : Contract) (input : List (String × Value)) :
    List String → FactSet → List (String × FactDef) →
    Option String × FactSet × List (String × FactDef)
  | [], facts, fired => (none, facts, fired)
  | name :: rest, facts, fired =>
    match lookupA c.facts name with
    | none => gatherPhase1 c input rest facts fired
    | some fd =>
      if fd.source = "input" then
        match lookupA input name with
        | some val => gatherPhase1 c input rest (facts.set name val) fired
        | none =>
            if fd.required then (some name, facts, fired)
            else gatherPhase1 c input rest facts fired
      else if fd.source = "ctx" then
        if name = "user.roles" then
          gatherPhase1 c input rest (facts.set name (.vList [.vStr "customer"])) fired
        else gatherPhase1 c input rest facts fired
      else if isPortSource fd.source then
        gatherPhase1 c input rest facts (fired ++ [(name, fd)])
      else gatherPhase1 c input rest facts fired

/-- The collection pass of Go `gatherFacts`: per port result, store the value
on success, and on failure apply the fact's `onMissing` policy — `deny` and
the `system_error` default abort with a `factError`, `skip` records nothing
so the fact stays absent. -/
def gatherPhase2 (portGet : String → String → Except String Value) :
    List (String × FactDef) → FactSet → Except GatherErr FactSet
  | [], facts => .ok facts
  | (name, fd) :: rest, facts =>
    match portGet (portName fd.source) name with
    | .ok val => gatherPhase2 portGet rest (facts.set name val)
    | .error msg =>
      if fd.onMissing = "deny" then .error (.factErr name msg "denied")
      else if fd.onMissing = "skip" then gatherPhase2 portGet rest facts
      else .error (.factErr name msg "system_error")

/-- Go `gatherFacts`, with the needed-set iteration order explicit and port
results collected in launch order (one admissible channel schedule).  Also
returns the names of the port facts actually queried. -/
def gatherFacts (c : Contract) (order : List String) (input : List (String × Value))
    (portGet : String → String → Except String Value) :
    Except GatherErr FactSet × List String :=
  match gatherPhase1 c input order [] [] with
  | (some name, _, fired) => (.error (.requiredMissing name), fired.map (·.1))
  | (none, facts, fired) => (gatherPhase2 portGet fired facts, fired.map (·.1))

/-- Go `topoSort.visit`: depth-first traversal with a visited set; a name is
appended to the order after all of its derivation's fact arguments have been
visited.  State is `(visited, order)`; fuel replaces the implicit bound the
visited set provides in Go. -/
def visit (dfs : List (String × DerivedFactDef)) :
    Nat → String → List String × List String → List String × List String
  | 0, _, st => st
  | fuel + 1, name, (v, o) =>
    if name ∈ v then (v, o)
    else
      match lookupA dfs name with
      | none => (name :: v, o)
      | some df =>
          let st := df.derivation.args.foldl
            (fun st arg => if arg.fact ≠ "" then visit dfs fuel arg.fact st else st)
            (name :: v, o)
          (st.1, st.2 ++ [name])

/-- Go `topoSort`: derived-fact names in dependency order (dependencies
first).  `names` is the nondeterministic map-iteration order of the outer
loop; the per-visit fuel `dfs.length + 1` bounds the depth the visited set
bounds in Go. -/
def topoSort (dfs : List (String × DerivedFactDef)) (names : List String) : List String :=
  (names.foldl (fun st n => visit dfs (dfs.length + 1) n st) ([], [])).2

/-- The evaluation loop of Go `deriveFacts` over an already-ordered name
list; each result is written back into the fact set. -/
def deriveLoop (c : Contract) : List String → FactSet → Except String FactSet
  | [], facts => .ok facts
  | name :: rest, facts =>
    let df := (lookupA c.derivedFacts name).getD ⟨⟨"", []⟩⟩
    match evalDerivation df.derivation facts with
    | .error e => .error ("derive \"" ++ name ++ "\": " ++ e)
    | .ok val => deriveLoop c rest (facts.set name val)

/-- Go `deriveFacts`: evaluates derived facts in `topoSort` order.
`dfNames` is the map-iteration order fed to `topoSort`. -/
def deriveFacts (c : Contract) (dfNames : List String) (facts : FactSet) :
    Except String FactSet :=
  deriveLoop c (topoSort c.derivedFacts dfNames) facts

/-- The outcome of one `Evaluate` call: the Go `(resp, err)` pair, plus an
explicit trace of the external boundary — which port facts were queried via
`Get` and whether the Port's `Execute` was invoked. -/
structure EvalOut : Type where
  result : Except String Response
  portsQueried : List String
  execCalled : Bool

/-- The `CONTRACT_VERSION_MISMATCH` error envelope built by `Evaluate`. -/
def versionMismatchEnv : ErrorEnvelope :=
  ⟨"CONTRACT_VERSION_MISMATCH",
   "Client contract version is stale — re-fetch contracts and retry",
   409, "system", true, ""⟩

/-- Go `Evaluate` (engine.go, the Section 11 algorithm), for a loaded
contract.  External nondeterminism is explicit: `portGet` is the Port's
`Get`, `execResult` the result the Port's `Execute` would return, `order`
the needed-facts map-iteration order, `dfNames` the derived-facts
map-iteration order.  Steps, in Go order: version check, operation lookup,
gather, derive, rule evaluation, verdict resolution, dry-run return, deny
and escalate returns, then Execute — the only step that sets `execCalled`. -/
def Evaluate (c : Contract) (etag : String) (req : Request)
    (portGet : String → String → Except String Value)
    (execResult : Except String (List (String × Value)))
    (order : List String) (dfNames : List String) : EvalOut :=
  if req.contractETag ≠ "" ∧ req.contractETag ≠ etag then
    { result := .ok ⟨"system_error", none, some versionMismatchEnv, [], none, false⟩,
      portsQueried := [], execCalled := false }
  else
    match lookupA c.operations req.operation with
    | none =>
        { result := .error ("unknown operation: " ++ req.operation),
          portsQueried := [], execCalled := false }
    | some _ =>
      match gatherFacts c order req.input portGet with
      | (.error (.requiredMissing name), q) =>
          { result := .error ("required input fact \"" ++ name ++ "\" missing from request"),
            portsQueried := q, execCalled := false }
      | (.error (.factErr f reason outcome), q) =>
          { result := .ok ⟨outcome, none,
              some ⟨"FACT_UNAVAILABLE", "fact \"" ++ f ++ "\" unavailable: " ++ reason,
                    503, "system", true, ""⟩, [], none, false⟩,
            portsQueried := q, execCalled := false }
      | (.ok facts0, q) =>
        match deriveFacts c dfNames facts0 with
        | .error e =>
            { result := .error ("derive facts: " ++ e),
              portsQueried := q, execCalled := false }
        | .ok facts =>
          let verdicts := evaluateRules c req.operation facts
          let final := resolveVerdicts verdicts
          if req.dryRun then
            { result := .ok ⟨dryRunOutcome final, none, none, verdicts, some facts, true⟩,
              portsQueried := q, execCalled := false }
          else
            let execStep : EvalOut :=
              match execResult with
              | .error msg =>
                  { result := .ok ⟨"system_error", none,
                      some ⟨"EXECUTION_FAILED", msg, 500, "system", true, ""⟩,
                      [], none, false⟩,
                    portsQueried := q, execCalled := true }
              | .ok out =>
                  { result := .ok ⟨"executed", some out, none,
                      (if verdicts.length > 0 then verdicts else []), none, false⟩,
                    portsQueried := q, execCalled := true }
            match final with
            | some f =>
                if f.vtype = "deny" then
                  { result := .ok ⟨"denied", none, f.error, verdicts, none, false⟩,
                    portsQueried := q, execCalled := false }
                else if f.vtype = "escalate" then
                  { result := .ok ⟨"escalated", none, none, verdicts, none, false⟩,
                    portsQueried := q, execCalled := false }
                else execStep
            | none => execStep

/-! ## Notions for the topological-sort correctness statement -/

/-- The fact names a derived fact's derivation references: the `fact`-bearing
arguments of `name`'s definition (empty when `name` is not a derived fact). -/
def depsOf (dfs : List (String × DerivedFactDef)) (name : String) : List String :=
  match lookupA dfs name with
  | some df => (df.derivation.args.filter (fun a => a.fact ≠ "")).map DerivationArg.fact
  | none => []

/-- `a` occurs strictly before `b` in the list `o`. -/
def Before (o : List String) (a b : String) : Prop :=
  ∃ l1 l2 l3, o = l1 ++ a :: l2 ++ b :: l3

/-- The invariant `visit` maintains on its `(visited, order)` state: the
order is duplicate-free, contains only visited derived-fact keys, and lists
every evaluated fact after all derived facts its derivation references. -/
def TopoInv (dfs : List (String × DerivedFactDef)) (st : List String × List String) : Prop :=
  st.2.Nodup
  ∧ (∀ x ∈ st.2, x ∈ st.1)
  ∧ (∀ x ∈ st.2, (lookupA dfs x).isSome = true)
  ∧ (∀ x ∈ st.2, ∀ d ∈ depsOf dfs x,
      (lookupA dfs d).isSome = true → d ∈ st.2 ∧ Before st.2 d x)

/-- The number of derived-fact keys not yet visited — the measure by which
Go's visited set bounds the recursion depth. -/
def unvisited (dfs : List (String × DerivedFactDef)) (v : List String) : Nat :=
  ((dfs.map Prod.fst).dedup.filter (fun k => ¬ k ∈ v)).length

/-! ## Concrete verification scenarios -/

/-- A two-level acyclic derived-fact graph: `d2` references `d1`, which
references the base fact `b`. -/
def dagDfs : List (String × DerivedFactDef) :=
  [("d2", ⟨⟨"and", [⟨"d1", "", none⟩]⟩⟩),
   ("d1", ⟨⟨"equals", [⟨"b", "", none⟩, ⟨"", "", some (.vInt 1)⟩]⟩⟩)]

/-- A contract holding only `dagDfs`. -/
def dagContract : Contract := ⟨[], dagDfs, [], []⟩

/-- A rank function witnessing the acyclicity of `dagDfs`. -/
def dagRank : String → Nat :=
  fun s => if s = "d2" then 2 else if s = "d1" then 1 else 0

/-- A contract with a single always-matching rule yielding a `require`
verdict, constraining operation `op1`. -/
def requireContract : Contract :=
  ⟨[], [],
   [⟨"r1", [], .mk [] [] none "" none none none [],
     ⟨none, none, some ⟨["manager-approval"], "needs approval"⟩, none⟩⟩],
   [("op1", ⟨["r1"]⟩)]⟩

/-- A contract with a single always-matching rule yielding a `flag`
verdict, constraining operation `op1`. -/
def flagContract : Contract :=
  ⟨[], [],
   [⟨"r1", [], .mk [] [] none "" none none none [],
     ⟨none, none, none, some ⟨"BIG", "large payment"⟩⟩⟩],
   [("op1", ⟨["r1"]⟩)]⟩

/-- A two-cycle of derived facts: `c1` references `c2` and `c2` references
`c1`. -/
def cycContract : Contract :=
  ⟨[], [("c1", ⟨⟨"and", [⟨"c2", "", none⟩]⟩⟩), ("c2", ⟨⟨"and", [⟨"c1", "", none⟩]⟩⟩)],
   [], []⟩

/-- The derivation functions `evalDerivation` implements. -/
def knownFns : List String :=
  ["greater_than", "greater_or_equal", "less_than", "equals", "and", "or", "not"]

/-- A contract whose single rule references the ctx-sourced fact `user.id`,
constraining operation `op1`. -/
def ctxContract : Contract :=
  ⟨[("user.id", ⟨"ctx", true, ""⟩)], [],
   [⟨"r1", [], Condition.leaf "user.id" (some (.vStr "u1")) none none [],
     ⟨none, none, none, some ⟨"F", "f"⟩⟩⟩],
   [("op1", ⟨["r1"]⟩)]⟩

/-- The hard-coded value the gatherer stores for the ctx fact `user.roles`. -/
def ctxRoles : Value := .vList [.vStr "customer"]

/-- A contract with one fact of each source kind. -/
def gatherWContract : Contract :=
  ⟨[("amt", ⟨"input", true, ""⟩), ("user.roles", ⟨"ctx", true, ""⟩),
    ("bal", ⟨"port:repo", true, ""⟩)], [], [], []⟩

/-! ## Shared evaluation lemmas -/

/-- A leaf condition with a populated `equals` field compares the resolved
fact value (absent → nil) against the literal with `applyOp "equals"`. -/
theorem evalCondition_leaf_equals (fs : FactSet) (fact : String) (hf : fact ≠ "")
    (e : Value) :
    evalCondition (Condition.leaf fact (some e) none none []) fs =
      applyOp "equals" ((fs.getPath fact).getD .vNull) e := by
  simp [evalCondition, Condition.leaf, hf]

/-- A leaf condition with a populated `greater_than` field. -/
theorem evalCondition_leaf_gt (fs : FactSet) (fact : String) (hf : fact ≠ "")
    (g : Value) :
    evalCondition (Condition.leaf fact none (some g) none []) fs =
      applyOp "greater_than" ((fs.getPath fact).getD .vNull) g := by
  simp [evalCondition, Condition.leaf, hf]

/-- A leaf condition with a populated `less_than` field. -/
theorem evalCondition_leaf_lt (fs : FactSet) (fact : String) (hf : fact ≠ "")
    (l : Value) :
    evalCondition (Condition.leaf fact none none (some l) []) fs =
      applyOp "less_than" ((fs.getPath fact).getD .vNull) l := by
  simp [evalCondition, Condition.leaf, hf]

/-- A leaf condition with a nonempty `in` list is a disjunction of `equals`
comparisons of the resolved fact value against the listed literals. -/
theorem evalCondition_leaf_in (fs : FactSet) (fact : String) (hf : fact ≠ "")
    (vs : List Value) (hvs : vs ≠ []) :
    evalCondition (Condition.leaf fact none none none vs) fs =
      vs.any (fun v => applyOp "equals" ((fs.getPath fact).getD .vNull) v) := by
  rcases vs with _ | ⟨v, vs⟩
  · exact absurd rfl hvs
  · simp [evalCondition, Condition.leaf, hf]

/-! ## Claim C10 — the `equals` comparison is `%v` string-formatting equality -/

/-- Claim C10: the `equals` comparison used by leaf rule conditions, by the
`in` operator, and by the `equals` derivation function holds exactly when the
default (`%v`) string formatting of the two values coincides; in particular
the number 500 equals the string `"500"`, and an absent (nil) fact equals the
literal string `"<nil>"`. -/
theorem equals_is_format_equality :
    (∀ l r : Value, applyOp "equals" l r = true ↔ format l = format r)
    ∧ (∀ (d : Derivation) (fs : FactSet), d.fn = "equals" → 2 ≤ d.args.length →
        evalDerivation d fs =
          .ok (.vBool (format (getArgVal fs d.args[0]!) == format (getArgVal fs d.args[1]!))))
    ∧ (∀ (fs : FactSet) (fact : String) (e : Value), fact ≠ "" →
        evalCondition (Condition.leaf fact (some e) none none []) fs =
          applyOp "equals" ((fs.getPath fact).getD .vNull) e)
    ∧ (∀ (fs : FactSet) (fact : String) (vs : List Value), fact ≠ "" → vs ≠ [] →
        evalCondition (Condition.leaf fact none none none vs) fs =
          vs.any (fun v => applyOp "equals" ((fs.getPath fact).getD .vNull) v))
    ∧ applyOp "equals" (.vInt 500) (.vStr "500") = true
    ∧ applyOp "equals" .vNull (.vStr "<nil>") = true := by
  refine ⟨fun l r => ?_, fun d fs h1 h2 => ?_,
    fun fs fact e h => evalCondition_leaf_equals fs fact h e,
    fun fs fact vs h hvs => evalCondition_leaf_in fs fact h vs hvs, rfl, rfl⟩
  · simp [applyOp]
  · have hne1 : d.fn ≠ "greater_than" := by rw [h1]; decide
    have hne2 : d.fn ≠ "greater_or_equal" := by rw [h1]; decide
    have hne3 : d.fn ≠ "less_than" := by rw [h1]; decide
    have hlen : ¬ d.args.length < 2 := by omega
    simp [evalDerivation, hne1, hne2, hne3, h1, hlen]

/-- Witness for C10 at concrete inputs. -/
theorem equals_is_format_equality_witness :
    (applyOp "equals" (.vStr "a") (.vStr "a") = true ↔ format (.vStr "a") = format (.vStr "a"))
    ∧ evalDerivation ⟨"equals", [⟨"x", "", none⟩, ⟨"", "", some (.vStr "<nil>")⟩]⟩ [] =
        .ok (.vBool (format (getArgVal [] ⟨"x", "", none⟩) ==
          format (getArgVal [] ⟨"", "", some (.vStr "<nil>")⟩)))
    ∧ evalCondition (Condition.leaf "x" (some (.vStr "<nil>")) none none []) [] =
        applyOp "equals" ((FactSet.getPath [] "x").getD .vNull) (.vStr "<nil>") :=
  ⟨equals_is_format_equality.1 _ _,
   equals_is_format_equality.2.1 ⟨"equals", [⟨"x", "", none⟩, ⟨"", "", some (.vStr "<nil>")⟩]⟩
     [] rfl (by decide),
   equals_is_format_equality.2.2.1 [] "x" _ (by decide)⟩

/-! ## Claim C8 — leaf conditions on absent facts -/

/-- Claim C8 counterexample: an absent fact does NOT evaluate every leaf
condition to false — the absent value formats as `"<nil>"`, so an `equals`
(or `in`) comparison against the literal string `"<nil>"` evaluates to true.
Here the fact set is empty, the referenced fact is absent, yet the leaf
holds. -/
theorem absent_fact_equals_nil_literal_true :
    FactSet.getPath [] "risk.score" = none
    ∧ evalCondition (Condition.leaf "risk.score" (some (.vStr "<nil>")) none none []) [] = true
    ∧ evalCondition (Condition.leaf "risk.score" none none none [.vStr "<nil>"]) [] = true :=
  ⟨rfl, rfl, rfl⟩

/-- Claim C8 (amended): a leaf condition whose referenced fact is absent
resolves the fact to the nil value and never errors; `greater_than` and
`less_than` leaves are always false, and `equals` / `in` leaves are false
unless a compared literal formats as `"<nil>"`. -/
theorem absent_fact_leaf_eval (fs : FactSet) (fact : String) (hf : fact ≠ "")
    (h : fs.getPath fact = none) :
    (∀ g, evalCondition (Condition.leaf fact none (some g) none []) fs = false)
    ∧ (∀ l, evalCondition (Condition.leaf fact none none (some l) []) fs = false)
    ∧ (∀ e, format e ≠ "<nil>" →
        evalCondition (Condition.leaf fact (some e) none none []) fs = false)
    ∧ (∀ vs, vs ≠ [] → (∀ v ∈ vs, format v ≠ "<nil>") →
        evalCondition (Condition.leaf fact none none none vs) fs = false) := by
  refine ⟨fun g => ?_, fun l => ?_, fun e he => ?_, fun vs hne hv => ?_⟩
  · rw [evalCondition_leaf_gt fs fact hf g, h]
    rfl
  · rw [evalCondition_leaf_lt fs fact hf l, h]
    rfl
  · rw [evalCondition_leaf_equals fs fact hf e, h]
    show (format .vNull == format e) = false
    simp only [format, beq_eq_false_iff_ne, ne_eq]
    intro hcontr
    exact he hcontr.symm
  · rw [evalCondition_leaf_in fs fact hf vs hne, h]
    rw [List.any_eq_false]
    intro x hx hcontr
    have hfmt : format Value.vNull = format x := by
      have hb : (format Value.vNull == format x) = true := hcontr
      exact beq_iff_eq.mp hb
    exact hv x hx hfmt.symm

/-- Witness for the amended C8 at concrete inputs. -/
theorem absent_fact_leaf_eval_witness :
    FactSet.getPath [] "x" = none
    ∧ evalCondition (Condition.leaf "x" none (some (.vInt 3)) none []) [] = false
    ∧ evalCondition (Condition.leaf "x" (some (.vInt 3)) none none []) [] = false
    ∧ evalCondition (Condition.leaf "x" none none none [.vInt 3]) [] = false := by
  have h := absent_fact_leaf_eval [] "x" (by decide) rfl
  refine ⟨rfl, h.1 _, h.2.2.1 _ ?_, h.2.2.2 _ ?_ ?_⟩
  · show "3" ≠ "<nil>"
    decide
  · exact List.cons_ne_nil _ _
  · intro v hv
    rw [List.mem_singleton] at hv
    rw [hv]
    show "3" ≠ "<nil>"
    decide

/-! ## Claim C3 — verdict resolution -/

/-- Claim C3 counterexample: when two verdicts share the winning type they do
NOT both appear in the result of `resolveVerdicts` — the function returns a
single verdict, the first of the winning type; here two distinct flags tie
and only the first is returned. -/
theorem resolve_keeps_only_first_of_winning_type :
    resolveVerdicts [⟨"flag", "A", "", none, ""⟩, ⟨"flag", "B", "", none, ""⟩] =
      some ⟨"flag", "A", "", none, ""⟩
    ∧ (⟨"flag", "B", "", none, ""⟩ : Verdict) ≠ ⟨"flag", "A", "", none, ""⟩ :=
  ⟨rfl, by decide⟩

/-- `priority` never exceeds 4, and 4 is reached only by `deny`. -/
theorem priority_le_four (t : String) : priority t ≤ 4 ∧ (priority t = 4 → t = "deny") := by
  by_cases h1 : t = "deny"
  · subst h1
    exact ⟨by decide, fun _ => rfl⟩
  · have h3 : priority t ≤ 3 := by
      unfold priority
      rw [if_neg h1]
      split_ifs <;> omega
    exact ⟨by omega, fun hc => absurd hc (by omega)⟩

/-- The fold inside `resolveVerdicts`, characterized: starting from a best
verdict `b`, the result is `b` or a list element, its priority dominates `b`
and every list element. -/
theorem resolve_fold_spec (vs : List Verdict) (b : Verdict) :
    ∃ w, vs.foldl
        (fun best v =>
          match best with
          | none => some v
          | some b => if priority v.vtype > priority b.vtype then some v else some b)
        (some b) = some w
      ∧ (w = b ∨ w ∈ vs) ∧ priority b.vtype ≤ priority w.vtype
      ∧ ∀ v ∈ vs, priority v.vtype ≤ priority w.vtype := by
  induction vs generalizing b with
  | nil => exact ⟨b, rfl, Or.inl rfl, le_refl _, by simp⟩
  | cons v rest ih =>
    by_cases hp : priority v.vtype > priority b.vtype
    · obtain ⟨w, hw, hmem, hle, hall⟩ := ih v
      refine ⟨w, ?_, ?_, ?_, ?_⟩
      · simpa [hp] using hw
      · rcases hmem with rfl | hm
        · exact Or.inr (List.mem_cons_self _ _)
        · exact Or.inr (List.mem_cons_of_mem _ hm)
      · omega
      · intro x hx
        rcases List.mem_cons.mp hx with rfl | hm
        · exact hle
        · exact hall x hm
    · obtain ⟨w, hw, hmem, hle, hall⟩ := ih b
      refine ⟨w, ?_, ?_, hle, ?_⟩
      · simpa [hp] using hw
      · rcases hmem with rfl | hm
        · exact Or.inl rfl
        · exact Or.inr (List.mem_cons_of_mem _ hm)
      · intro x hx
        rcases List.mem_cons.mp hx with rfl | hm
        · omega
        · exact hall x hm

/-- Claim C3 (amended): `resolveVerdicts` selects a `deny`-typed verdict
whenever any `deny` is present, regardless of lower-priority verdicts; the
result is a single verdict drawn from the list whose priority dominates every
verdict in the list (so same-type ties surface only one winner — the full
list travels separately in the response's `verdicts` field). -/
theorem resolve_deny_wins_single_result (vs : List Verdict) :
    ((∃ v ∈ vs, v.vtype = "deny") →
      ∃ w, resolveVerdicts vs = some w ∧ w.vtype = "deny")
    ∧ (∀ w, resolveVerdicts vs = some w →
        w ∈ vs ∧ ∀ v ∈ vs, priority v.vtype ≤ priority w.vtype) := by
  rcases vs with _ | ⟨v0, rest⟩
  · exact ⟨by simp, by simp [resolveVerdicts]⟩
  · have hfold := resolve_fold_spec rest v0
    obtain ⟨w, hw, hmem, hle, hall⟩ := hfold
    have hres : resolveVerdicts (v0 :: rest) = some w := by
      simpa [resolveVerdicts] using hw
    constructor
    · rintro ⟨v, hv, hvd⟩
      refine ⟨w, hres, ?_⟩
      have h4 : priority v.vtype = 4 := by rw [hvd]; rfl
      have hwle : priority w.vtype ≤ 4 := (priority_le_four _).1
      have : priority v.vtype ≤ priority w.vtype := by
        rcases List.mem_cons.mp hv with rfl | hm
        · exact hle
        · exact hall _ hm
      exact (priority_le_four _).2 (by omega)
    · intro w' hw'
      rw [hres] at hw'
      cases hw'
      constructor
      · rcases hmem with rfl | hm
        · exact List.mem_cons_self _ _
        · exact List.mem_cons_of_mem _ hm
      · intro v hv
        rcases List.mem_cons.mp hv with rfl | hm
        · exact hle
        · exact hall _ hm

/-- Witness for the amended C3 at a concrete list. -/
theorem resolve_deny_wins_single_result_witness :
    (∃ w, resolveVerdicts
        [⟨"flag", "F", "", none, ""⟩, ⟨"deny", "D", "", none, ""⟩] = some w
      ∧ w.vtype = "deny") :=
  (resolve_deny_wins_single_result
      [⟨"flag", "F", "", none, ""⟩, ⟨"deny", "D", "", none, ""⟩]).1
    ⟨⟨"deny", "D", "", none, ""⟩, by decide, rfl⟩

/-! ## Claim C4 — version mismatch rejected up front -/

/-- Claim C4: a request naming an expected contract version different from
the captured one terminates with the version-conflict response before any
fact is gathered — no port is queried and Execute is never invoked — and the
rejection is identical for dry-run requests. -/
theorem version_mismatch_rejected (c : Contract) (etag : String) (req : Request)
    (portGet : String → String → Except String Value)
    (execResult : Except String (List (String × Value))) (order dfNames : List String)
    (h1 : req.contractETag ≠ "") (h2 : req.contractETag ≠ etag) :
    Evaluate c etag req portGet execResult order dfNames =
      ⟨.ok ⟨"system_error", none, some versionMismatchEnv, [], none, false⟩, [], false⟩ := by
  unfold Evaluate
  rw [if_pos ⟨h1, h2⟩]

/-- Witness for C4 at a concrete mismatched request (dry-run, even). -/
theorem version_mismatch_rejected_witness :
    Evaluate ⟨[], [], [], []⟩ "etag-a" ⟨"op", [], true, "etag-b"⟩
        (fun _ _ => .error "port down") (.error "exec down") [] [] =
      ⟨.ok ⟨"system_error", none, some versionMismatchEnv, [], none, false⟩, [], false⟩ :=
  version_mismatch_rejected _ _ _ _ _ _ _ (by decide) (by decide)

/-! ## Claim C2 — dry-run never executes -/

/-- Claim C2: with `dryRun` set, `Evaluate` never invokes the Port's
`Execute`, whatever the contract, the rule verdicts (deny, escalate,
require, flag, or none), and the outcomes of gathering and derivation. -/
theorem dry_run_never_calls_execute (c : Contract) (etag : String) (req : Request)
    (portGet : String → String → Except String Value)
    (execResult : Except String (List (String × Value))) (order dfNames : List String)
    (h : req.dryRun = true) :
    (Evaluate c etag req portGet execResult order dfNames).execCalled = false := by
  unfold Evaluate
  split
  · rfl
  split
  · rfl
  split
  · rfl
  · rfl
  split
  · rfl
  simp [h]

/-- Witness for C2 at a concrete dry-run request. -/
theorem dry_run_never_calls_execute_witness :
    (Evaluate ⟨[], [], [], []⟩ "e" ⟨"op", [], true, ""⟩
        (fun _ _ => .error "port down") (.ok []) [] []).execCalled = false :=
  dry_run_never_calls_execute _ _ _ _ _ _ _ rfl

/-! ## Claim C1 — require verdicts (code bug: they do not terminate) -/

/-- Claim C1 (code bug): the repository's normative specification
(COVENANT.md §11.1, "If require → return required conditions to agent, no
side effects") requires a `require` verdict to terminate evaluation, but
`Evaluate` only short-circuits on `deny` and `escalate`: with a matched
`require` verdict and no dry-run flag, the Port's `Execute` IS invoked, the
outcome is `executed`, and the required conditions are nowhere in the
response (the verdict built for `require` drops them). -/
theorem require_verdict_still_executes :
    Evaluate requireContract "v1" ⟨"op1", [], false, ""⟩ (fun _ _ => .error "no port")
        (.ok [("done", .vBool true)]) [] [] =
      ⟨.ok ⟨"executed", some [("done", .vBool true)], none,
        [⟨"require", "", "needs approval", none, ""⟩], none, false⟩, [], true⟩ := rfl

/-! ## Claim C9 — dry-run response content -/

/-- Claim C9 counterexample: the dry-run response does NOT carry the list of
matched rule ids.  Rule `r1` matches, yet the complete response — a `would_*`
outcome, the verdict list, and the fact snapshot — contains the id `r1` in no
field; neither `Response` nor `Verdict` has a rule-id field. -/
theorem dry_run_response_lacks_rule_ids :
    Evaluate flagContract "v1" ⟨"op1", [], true, ""⟩ (fun _ _ => .error "no port")
        (.ok []) [] [] =
      ⟨.ok ⟨"would_execute_with_flags", none, none,
        [⟨"flag", "BIG", "large payment", none, ""⟩], some [], true⟩, [], false⟩
    ∧ ∀ v ∈ [(⟨"flag", "BIG", "large payment", none, ""⟩ : Verdict)],
        v.vtype ≠ "r1" ∧ v.code ≠ "r1" ∧ v.reason ≠ "r1" ∧ v.queue ≠ "r1" :=
  ⟨rfl, by decide⟩

/-- Claim C9 (amended): a dry-run request that passes the version check,
gathering, and derivation returns the `would_*` outcome computed from the
resolved verdict, the full fact snapshot, and the matched rules' verdicts —
but no rule ids, which the response cannot carry. -/
theorem dry_run_response_content (c : Contract) (etag : String) (req : Request)
    (portGet : String → String → Except String Value)
    (execResult : Except String (List (String × Value))) (order dfNames : List String)
    (op : OperationDef) (facts0 facts : FactSet) (q : List String)
    (hd : req.dryRun = true)
    (hv : ¬(req.contractETag ≠ "" ∧ req.contractETag ≠ etag))
    (hop : lookupA c.operations req.operation = some op)
    (hg : gatherFacts c order req.input portGet = (.ok facts0, q))
    (hder : deriveFacts c dfNames facts0 = .ok facts) :
    Evaluate c etag req portGet execResult order dfNames =
      ⟨.ok ⟨dryRunOutcome (resolveVerdicts (evaluateRules c req.operation facts)), none, none,
        evaluateRules c req.operation facts, some facts, true⟩, q, false⟩ := by
  unfold Evaluate
  rw [if_neg hv, hop, hg]
  dsimp only
  rw [hder]
  dsimp only
  simp [hd]

/-- Witness for the amended C9 at the flag-contract dry run. -/
theorem dry_run_response_content_witness :
    Evaluate flagContract "v1" ⟨"op1", [], true, ""⟩ (fun _ _ => .error "no port")
        (.ok []) [] [] =
      ⟨.ok ⟨dryRunOutcome (resolveVerdicts (evaluateRules flagContract "op1" [])), none, none,
        evaluateRules flagContract "op1" [], some [], true⟩, [], false⟩ :=
  dry_run_response_content flagContract "v1" ⟨"op1", [], true, ""⟩ _ _ [] [] ⟨["r1"]⟩ [] [] []
    rfl (by decide) rfl rfl rfl

/-! ## Claim C5 — cycles in the derived-fact graph -/

/-- Claim C5 counterexample: on a cyclic derived-fact graph `Derive` returns
no error at all — the cycle is silently evaluated in some order (here `c2`
then `c1`, each unresolved reference reading as absent), not detected as a
fatal configuration error. -/
theorem derive_cycle_silently_evaluates :
    deriveFacts cycContract ["c1", "c2"] [] =
      .ok [("c1", .vBool true), ("c2", .vBool true)] := rfl

/-- A successful association-list lookup produces an element of the list. -/
theorem lookupA_mem {α : Type} (l : List (String × α)) (k : String) (v : α)
    (h : lookupA l k = some v) : (k, v) ∈ l := by
  induction l with
  | nil => simp [lookupA] at h
  | cons p rest ih =>
    obtain ⟨k', v'⟩ := p
    rw [lookupA] at h
    by_cases hk : k' = k
    · subst hk
      rw [if_pos rfl] at h
      cases h
      exact List.mem_cons_self _ _
    · rw [if_neg hk] at h
      exact List.mem_cons_of_mem _ (ih h)

/-- `evalDerivation` succeeds on every known derivation function. -/
theorem evalDerivation_isOk (d : Derivation) (fs : FactSet) (h : d.fn ∈ knownFns) :
    (evalDerivation d fs).isOk = true := by
  obtain ⟨fn, args⟩ := d
  simp only [knownFns, List.mem_cons, List.mem_singleton, List.not_mem_nil, or_false] at h
  rcases h with rfl | rfl | rfl | rfl | rfl | rfl | rfl <;>
    simp only [evalDerivation] <;>
    (try simp) <;>
    (first
      | rfl
      | (split <;> (first | rfl | (split <;> (first | rfl)))))

/-- `visit` only ever appends derived-fact keys to the order. -/
theorem visit_keys (dfs : List (String × DerivedFactDef)) :
    ∀ (fuel : Nat) (name : String) (st : List String × List String),
      (∀ x ∈ st.2, (lookupA dfs x).isSome = true) →
      ∀ x ∈ (visit dfs fuel name st).2, (lookupA dfs x).isSome = true := by
  intro fuel
  induction fuel with
  | zero =>
    intro name st h
    simpa [visit] using h
  | succ fuel ih =>
    intro name st h
    obtain ⟨v, o⟩ := st
    rw [visit]
    by_cases hmem : name ∈ v
    · rw [if_pos hmem]
      exact h
    · rw [if_neg hmem]
      cases hlk : lookupA dfs name with
      | none => exact h
      | some df =>
        have hfold : ∀ (args : List DerivationArg) (st' : List String × List String),
            (∀ x ∈ st'.2, (lookupA dfs x).isSome = true) →
            ∀ x ∈ (args.foldl
                (fun st arg => if arg.fact ≠ "" then visit dfs fuel arg.fact st else st)
                st').2, (lookupA dfs x).isSome = true := by
          intro args
          induction args with
          | nil => intro st' h' x hx; exact h' x hx
          | cons a rest iha =>
            intro st' h' x hx
            rw [List.foldl_cons] at hx
            by_cases ha : a.fact ≠ ""
            · rw [if_pos ha] at hx
              exact iha _ (ih a.fact st' h') x hx
            · rw [if_neg ha] at hx
              exact iha _ h' x hx
        intro x hx
        simp only at hx
        rcases List.mem_append.mp hx with hx1 | hx2
        · exact hfold df.derivation.args (name :: v, o) h x hx1
        · rw [List.mem_singleton] at hx2
          rw [hx2, hlk]
          rfl

/-- Every name `topoSort` emits is a derived-fact key. -/
theorem topoSort_keys (dfs : List (String × DerivedFactDef)) (names : List String) :
    ∀ n ∈ topoSort dfs names, (lookupA dfs n).isSome = true := by
  unfold topoSort
  suffices hgen : ∀ (l : List String) (st : List String × List String),
      (∀ x ∈ st.2, (lookupA dfs x).isSome = true) →
      ∀ x ∈ (l.foldl (fun st n => visit dfs (dfs.length + 1) n st) st).2,
        (lookupA dfs x).isSome = true by
    exact hgen names ([], []) (by simp)
  intro l
  induction l with
  | nil => intro st h x hx; exact h x hx
  | cons n rest ih =>
    intro st h x hx
    rw [List.foldl_cons] at hx
    exact ih _ (visit_keys dfs _ n st h) x hx

/-- The derivation loop succeeds whenever every name it evaluates is a
derived-fact key with a known derivation function. -/
theorem deriveLoop_isOk (c : Contract)
    (h : ∀ p ∈ c.derivedFacts, p.2.derivation.fn ∈ knownFns) :
    ∀ (names : List String) (facts : FactSet),
      (∀ n ∈ names, (lookupA c.derivedFacts n).isSome = true) →
      (deriveLoop c names facts).isOk = true := by
  intro names
  induction names with
  | nil => intro facts _; rfl
  | cons n rest ih =>
    intro facts hn
    have hsome := hn n (List.mem_cons_self _ _)
    cases hlk : lookupA c.derivedFacts n with
    | none => rw [hlk] at hsome; simp [Option.isSome] at hsome
    | some df =>
      have hmem := lookupA_mem _ _ _ hlk
      have hfn := h _ hmem
      have hok := evalDerivation_isOk df.derivation facts hfn
      rw [deriveLoop, hlk]
      simp only [Option.getD_some]
      cases heval : evalDerivation df.derivation facts with
      | error e => rw [heval] at hok; simp [Except.isOk, Except.toBool] at hok
      | ok val =>
        exact ih _ (fun m hm => hn m (List.mem_cons_of_mem _ hm))

/-- Claim C5 (amended): `Derive` neither loops nor fails on a cyclic
derived-fact graph — `topoSort`'s visited set guarantees termination, the
sort emits only derived-fact keys, and as long as every derivation names a
known function the whole derivation pass succeeds, cycles included; no cycle
detection exists. -/
theorem derive_never_errors_on_cycles (c : Contract) (dfNames : List String)
    (facts : FactSet)
    (h : ∀ p ∈ c.derivedFacts, p.2.derivation.fn ∈ knownFns) :
    (deriveFacts c dfNames facts).isOk = true :=
  deriveLoop_isOk c h _ facts (topoSort_keys c.derivedFacts dfNames)

/-- Witness for the amended C5 on the concrete two-cycle. -/
theorem derive_never_errors_on_cycles_witness :
    (deriveFacts cycContract ["c1", "c2"] []).isOk = true :=
  derive_never_errors_on_cycles cycContract ["c1", "c2"] [] (by decide)

/-! ## Claim C7 — gatherFacts success contents -/

/-- Claim C7 counterexample: `gatherFacts` succeeds, yet the fact set does
NOT contain every base fact required by the operation's rules — the
ctx-sourced fact `user.id` is needed by rule `r1` but the gatherer hard-codes
only `user.roles` for ctx facts, so `user.id` is silently absent (and it is
not a skip-class port absence). -/
theorem gather_misses_needed_ctx_fact :
    neededBaseFacts ctxContract "op1" = ["user.id"]
    ∧ gatherFacts ctxContract ["user.id"] [] (fun _ _ => .error "unused") = (.ok [], [])
    ∧ FactSet.get [] "user.id" = none
    ∧ (lookupA ctxContract.facts "user.id").map FactDef.onMissing ≠ some "skip" :=
  ⟨rfl, rfl, rfl, by decide⟩

/-- `FactSet.set` then `get`: the Go map update law. -/
theorem get_set (fs : FactSet) (m n : String) (v : Value) :
    FactSet.get (fs.set m v) n = if m = n then some v else FactSet.get fs n := rfl

/-- The collection pass preserves facts already present. -/
theorem gatherPhase2_mono (portGet : String → String → Except String Value) :
    ∀ (lst : List (String × FactDef)) (fs out : FactSet),
      gatherPhase2 portGet lst fs = .ok out →
      ∀ n, (FactSet.get fs n).isSome = true → (FactSet.get out n).isSome = true := by
  intro lst
  induction lst with
  | nil =>
    intro fs out h n hn
    rw [gatherPhase2] at h
    cases h
    exact hn
  | cons p rest ih =>
    intro fs out h n hn
    obtain ⟨name, fd⟩ := p
    rw [gatherPhase2] at h
    cases hpg : portGet (portName fd.source) name with
    | ok val =>
      rw [hpg] at h
      refine ih _ _ h n ?_
      rw [get_set]
      split
      · rfl
      · exact hn
    | error msg =>
      rw [hpg] at h
      split_ifs at h
      exact ih _ _ h n hn

/-- The collection pass leaves facts whose names it never fires unchanged. -/
theorem gatherPhase2_untouched (portGet : String → String → Except String Value) :
    ∀ (lst : List (String × FactDef)) (fs out : FactSet),
      gatherPhase2 portGet lst fs = .ok out →
      ∀ n, (∀ p ∈ lst, p.1 ≠ n) → FactSet.get out n = FactSet.get fs n := by
  intro lst
  induction lst with
  | nil =>
    intro fs out h n _
    rw [gatherPhase2] at h
    cases h
    rfl
  | cons p rest ih =>
    intro fs out h n hnames
    obtain ⟨name, fd⟩ := p
    have hne : name ≠ n := hnames (name, fd) (List.mem_cons_self _ _)
    rw [gatherPhase2] at h
    cases hpg : portGet (portName fd.source) name with
    | ok val =>
      rw [hpg] at h
      rw [ih _ _ h n (fun q hq => hnames q (List.mem_cons_of_mem _ hq))]
      rw [get_set, if_neg hne]
    | error msg =>
      rw [hpg] at h
      split_ifs at h
      exact ih _ _ h n (fun q hq => hnames q (List.mem_cons_of_mem _ hq))

/-- On a successful collection pass, every fired port fact whose fetch
succeeds ends up in the fact set. -/
theorem gatherPhase2_ok_mem (portGet : String → String → Except String Value) :
    ∀ (lst : List (String × FactDef)) (fs out : FactSet),
      gatherPhase2 portGet lst fs = .ok out →
      ∀ p ∈ lst, (portGet (portName p.2.source) p.1).isOk = true →
        (FactSet.get out p.1).isSome = true := by
  intro lst
  induction lst with
  | nil =>
    intro fs out _ p hp
    exact absurd hp (List.not_mem_nil p)
  | cons hd rest ih =>
    intro fs out h p hp hok
    obtain ⟨name, fd⟩ := hd
    rw [gatherPhase2] at h
    rcases List.mem_cons.mp hp with rfl | hmem
    · dsimp only at hok ⊢
      cases hpg : portGet (portName fd.source) name with
      | ok val =>
        rw [hpg] at h
        refine gatherPhase2_mono portGet _ _ _ h name ?_
        rw [get_set, if_pos rfl]
        rfl
      | error msg =>
        rw [hpg] at hok
        simp [Except.isOk, Except.toBool] at hok
    · cases hpg : portGet (portName fd.source) name with
      | ok val =>
        rw [hpg] at h
        exact ih _ _ h p hmem hok
      | error msg =>
        rw [hpg] at h
        split_ifs at h
        exact ih _ _ h p hmem hok

/-- The synchronous first pass of `gatherFacts`, characterized on success:
facts only accumulate; fired port facts only accumulate and are exactly the
port-sourced processed facts; the hard-coded `user.roles` value persists; and
every processed name is stored / forced present / fired according to its
source. -/
theorem gatherPhase1_spec (c : Contract) (input : List (String × Value)) :
    ∀ (order : List String) (fs : FactSet) (fired : List (String × FactDef))
      (fs' : FactSet) (fired' : List (String × FactDef)),
      gatherPhase1 c input order fs fired = (none, fs', fired') →
      ((∀ n, (FactSet.get fs n).isSome = true → (FactSet.get fs' n).isSome = true)
       ∧ (∀ p ∈ fired, p ∈ fired')
       ∧ (∀ p ∈ fired', p ∈ fired ∨
            (lookupA c.facts p.1 = some p.2 ∧ isPortSource p.2.source = true))
       ∧ (∀ n fd, lookupA c.facts n = some fd → fd.source = "ctx" →
            FactSet.get fs n = some ctxRoles → FactSet.get fs' n = some ctxRoles)
       ∧ (∀ n ∈ order, ∀ fd, lookupA c.facts n = some fd →
            (fd.source = "input" → (lookupA input n).isSome = true →
              (FactSet.get fs' n).isSome = true)
            ∧ (fd.source = "input" → fd.required = true → (lookupA input n).isSome = true)
            ∧ (fd.source = "ctx" → n = "user.roles" → FactSet.get fs' n = some ctxRoles)
            ∧ (isPortSource fd.source = true → (n, fd) ∈ fired'))) := by
  intro order
  induction order with
  | nil =>
    intro fs fired fs' fired' h
    rw [gatherPhase1] at h
    cases h
    exact ⟨fun n hn => hn, fun p hp => hp, fun p hp => Or.inl hp,
      fun n fd _ _ hv => hv, fun n hn => absurd hn (List.not_mem_nil n)⟩
  | cons n0 rest ih =>
    intro fs fired fs' fired' h
    rw [gatherPhase1] at h
    cases hlk : lookupA c.facts n0 with
    | none =>
      rw [hlk] at h
      dsimp only at h
      obtain ⟨hmono, hfsub, hfchar, hctx, hord⟩ := ih fs fired fs' fired' h
      refine ⟨hmono, hfsub, hfchar, hctx, fun n hn fd hfd => ?_⟩
      rcases List.mem_cons.mp hn with rfl | hmem
      · rw [hlk] at hfd
        cases hfd
      · exact hord n hmem fd hfd
    | some fd0 =>
      rw [hlk] at h
      dsimp only at h
      by_cases hsrc1 : fd0.source = "input"
      · rw [if_pos hsrc1] at h
        cases hin : lookupA input n0 with
        | some val =>
          rw [hin] at h
          dsimp only at h
          obtain ⟨hmono, hfsub, hfchar, hctx, hord⟩ := ih _ _ _ _ h
          have hmono' : ∀ n, (FactSet.get fs n).isSome = true →
              (FactSet.get fs' n).isSome = true := by
            intro n hn
            refine hmono n ?_
            rw [get_set]
            split
            · rfl
            · exact hn
          have hctx' : ∀ n fd, lookupA c.facts n = some fd → fd.source = "ctx" →
              FactSet.get fs n = some ctxRoles → FactSet.get fs' n = some ctxRoles := by
            intro n fd hfd hfsrc hv
            refine hctx n fd hfd hfsrc ?_
            rw [get_set]
            split
            · next heq =>
              subst heq
              rw [hfd] at hlk
              cases hlk
              rw [hfsrc] at hsrc1
              exact absurd hsrc1 (by decide)
            · exact hv
          refine ⟨hmono', hfsub, hfchar, hctx', fun n hn fd hfd => ?_⟩
          rcases List.mem_cons.mp hn with rfl | hmem
          · rw [hlk] at hfd
            cases hfd
            refine ⟨fun _ _ => ?_, fun _ _ => ?_, fun hc _ => ?_, fun hp => ?_⟩
            · refine hmono n ?_
              rw [get_set, if_pos rfl]
              rfl
            · rw [hin]
              rfl
            · rw [hc] at hsrc1
              exact absurd hsrc1 (by decide)
            · rw [hsrc1] at hp
              exact absurd hp (by decide)
          · exact hord n hmem fd hfd
        | none =>
          rw [hin] at h
          dsimp only at h
          by_cases hreq : fd0.required = true
          · rw [if_pos hreq] at h
            simp at h
          · rw [if_neg hreq] at h
            obtain ⟨hmono, hfsub, hfchar, hctx, hord⟩ := ih _ _ _ _ h
            refine ⟨hmono, hfsub, hfchar, hctx, fun n hn fd hfd => ?_⟩
            rcases List.mem_cons.mp hn with rfl | hmem
            · rw [hlk] at hfd
              cases hfd
              refine ⟨fun _ hsome => ?_, fun _ hr => ?_, fun hc _ => ?_, fun hp => ?_⟩
              · rw [hin] at hsome
                simp [Option.isSome] at hsome
              · exact absurd hr hreq
              · rw [hc] at hsrc1
                exact absurd hsrc1 (by decide)
              · rw [hsrc1] at hp
                exact absurd hp (by decide)
            · exact hord n hmem fd hfd
      · rw [if_neg hsrc1] at h
        by_cases hsrc2 : fd0.source = "ctx"
        · rw [if_pos hsrc2] at h
          by_cases hroles : n0 = "user.roles"
          · rw [if_pos hroles] at h
            obtain ⟨hmono, hfsub, hfchar, hctx, hord⟩ := ih _ _ _ _ h
            have hmono' : ∀ n, (FactSet.get fs n).isSome = true →
                (FactSet.get fs' n).isSome = true := by
              intro n hn
              refine hmono n ?_
              rw [get_set]
              split
              · rfl
              · exact hn
            have hctx' : ∀ n fd, lookupA c.facts n = some fd → fd.source = "ctx" →
                FactSet.get fs n = some ctxRoles → FactSet.get fs' n = some ctxRoles := by
              intro n fd hfd hfsrc hv
              refine hctx n fd hfd hfsrc ?_
              rw [get_set]
              split
              · rfl
              · exact hv
            refine ⟨hmono', hfsub, hfchar, hctx', fun n hn fd hfd => ?_⟩
            rcases List.mem_cons.mp hn with rfl | hmem
            · rw [hlk] at hfd
              cases hfd
              refine ⟨fun hi _ => ?_, fun hi _ => ?_, fun _ _ => ?_, fun hp => ?_⟩
              · exact absurd hi hsrc1
              · exact absurd hi hsrc1
              · refine hctx n fd0 hlk hsrc2 ?_
                rw [get_set, if_pos rfl]
                rfl
              · rw [hsrc2] at hp
                exact absurd hp (by decide)
            · exact hord n hmem fd hfd
          · rw [if_neg hroles] at h
            obtain ⟨hmono, hfsub, hfchar, hctx, hord⟩ := ih _ _ _ _ h
            refine ⟨hmono, hfsub, hfchar, hctx, fun n hn fd hfd => ?_⟩
            rcases List.mem_cons.mp hn with rfl | hmem
            · rw [hlk] at hfd
              cases hfd
              refine ⟨fun hi _ => ?_, fun hi _ => ?_, fun _ hr => ?_, fun hp => ?_⟩
              · exact absurd hi hsrc1
              · exact absurd hi hsrc1
              · exact absurd hr hroles
              · rw [hsrc2] at hp
                exact absurd hp (by decide)
            · exact hord n hmem fd hfd
        · rw [if_neg hsrc2] at h
          by_cases hsrc3 : isPortSource fd0.source = true
          · rw [if_pos hsrc3] at h
            obtain ⟨hmono, hfsub, hfchar, hctx, hord⟩ := ih _ _ _ _ h
            refine ⟨hmono, fun p hp => hfsub p (List.mem_append_left _ hp),
              fun p hp => ?_, hctx, fun n hn fd hfd => ?_⟩
            · rcases hfchar p hp with hin | hgood
              · rcases List.mem_append.mp hin with hold | hnew
                · exact Or.inl hold
                · rw [List.mem_singleton] at hnew
                  subst hnew
                  exact Or.inr ⟨hlk, hsrc3⟩
              · exact Or.inr hgood
            · rcases List.mem_cons.mp hn with rfl | hmem
              · rw [hlk] at hfd
                cases hfd
                refine ⟨fun hi _ => ?_, fun hi _ => ?_, fun hc _ => ?_, fun _ => ?_⟩
                · exact absurd hi hsrc1
                · exact absurd hi hsrc1
                · exact absurd hc hsrc2
                · exact hfsub _ (List.mem_append_right _ (List.mem_singleton.mpr rfl))
              · exact hord n hmem fd hfd
          · rw [if_neg hsrc3] at h
            obtain ⟨hmono, hfsub, hfchar, hctx, hord⟩ := ih _ _ _ _ h
            refine ⟨hmono, hfsub, hfchar, hctx, fun n hn fd hfd => ?_⟩
            rcases List.mem_cons.mp hn with rfl | hmem
            · rw [hlk] at hfd
              cases hfd
              refine ⟨fun hi _ => ?_, fun hi _ => ?_, fun hc _ => ?_, fun hp => ?_⟩
              · exact absurd hi hsrc1
              · exact absurd hi hsrc1
              · exact absurd hc hsrc2
              · exact absurd hp hsrc3
            · exact hord n hmem fd hfd

/-- Claim C7 (amended): when `gatherFacts` succeeds, the resulting fact set
contains every needed input-sourced fact present in the request (with
required ones forced present by the early failure), the hard-coded ctx fact
`user.roles`, and every port-sourced fact whose fetch succeeds; other ctx
facts, optional input facts absent from the request, and skip-class port
failures are simply absent. -/
theorem gather_success_contents (c : Contract) (order : List String)
    (input : List (String × Value)) (portGet : String → String → Except String Value)
    (facts : FactSet) (q : List String)
    (hg : gatherFacts c order input portGet = (.ok facts, q)) :
    ∀ n ∈ order, ∀ fd, lookupA c.facts n = some fd →
      ((fd.source = "input" ∧ (lookupA input n).isSome = true) →
        (FactSet.get facts n).isSome = true)
      ∧ ((fd.source = "input" ∧ fd.required = true) → (FactSet.get facts n).isSome = true)
      ∧ ((fd.source = "ctx" ∧ n = "user.roles") → FactSet.get facts n = some ctxRoles)
      ∧ ((isPortSource fd.source = true ∧ (portGet (portName fd.source) n).isOk = true) →
          (FactSet.get facts n).isSome = true) := by
  intro n hn fd hfd
  unfold gatherFacts at hg
  rcases hp1 : gatherPhase1 c input order [] [] with ⟨err, fs1, fired1⟩
  rw [hp1] at hg
  cases err with
  | some name => simp at hg
  | none =>
    dsimp only at hg
    rw [Prod.mk.injEq] at hg
    obtain ⟨hg2, hgq⟩ := hg
    obtain ⟨hmono, hfsub, hfchar, hctx, hord⟩ :=
      gatherPhase1_spec c input order [] [] fs1 fired1 hp1
    obtain ⟨ho1, ho2, ho3, ho4⟩ := hord n hn fd hfd
    refine ⟨fun ⟨hsrc, hin⟩ => ?_, fun ⟨hsrc, hreq⟩ => ?_, fun ⟨hsrc, hroles⟩ => ?_,
      fun ⟨hsrc, hok⟩ => ?_⟩
    · exact gatherPhase2_mono portGet _ _ _ hg2 n (ho1 hsrc hin)
    · exact gatherPhase2_mono portGet _ _ _ hg2 n (ho1 hsrc (ho2 hsrc hreq))
    · have hunt : ∀ p ∈ fired1, p.1 ≠ n := by
        intro p hp hpn
        rcases hfchar p hp with hin | ⟨hplk, hpport⟩
        · exact absurd hin (List.not_mem_nil p)
        · rw [hpn, hfd] at hplk
          have hfdeq : fd = p.2 := Option.some.inj hplk
          rw [← hfdeq, hsrc] at hpport
          exact absurd hpport (by decide)
      rw [gatherPhase2_untouched portGet _ _ _ hg2 n hunt]
      exact ho3 hsrc hroles
    · exact gatherPhase2_ok_mem portGet _ _ _ hg2 (n, fd) (ho4 hsrc) hok

/-- Witness for the amended C7 on a concrete three-fact gather. -/
theorem gather_success_contents_witness :
    (FactSet.get [("bal", .vInt 7), ("user.roles", ctxRoles), ("amt", .vInt 5)]
        "amt").isSome = true
    ∧ FactSet.get [("bal", .vInt 7), ("user.roles", ctxRoles), ("amt", .vInt 5)]
        "user.roles" = some ctxRoles
    ∧ (FactSet.get [("bal", .vInt 7), ("user.roles", ctxRoles), ("amt", .vInt 5)]
        "bal").isSome = true := by
  have h := gather_success_contents gatherWContract ["amt", "user.roles", "bal"]
    [("amt", .vInt 5)] (fun _ _ => .ok (.vInt 7))
    [("bal", .vInt 7), ("user.roles", ctxRoles), ("amt", .vInt 5)] ["bal"] rfl
  exact ⟨(h "amt" (by decide) ⟨"input", true, ""⟩ rfl).1 ⟨rfl, rfl⟩,
    (h "user.roles" (by decide) ⟨"ctx", true, ""⟩ rfl).2.2.1 ⟨rfl, rfl⟩,
    (h "bal" (by decide) ⟨"port:repo", true, ""⟩ rfl).2.2.2 ⟨rfl, rfl⟩⟩

/-! ## Claim C6 — topological order of derivation -/

/-- A lookup succeeds exactly for the list's keys. -/
theorem lookupA_isSome_iff {α : Type} (l : List (String × α)) (k : String) :
    (lookupA l k).isSome = true ↔ k ∈ l.map Prod.fst := by
  induction l with
  | nil => simp [lookupA]
  | cons p rest ih =>
    obtain ⟨k', v'⟩ := p
    rw [lookupA]
    by_cases hk : k' = k
    · subst hk
      simp
    · rw [if_neg hk]
      simp only [List.map_cons, List.mem_cons]
      rw [ih]
      constructor
      · exact Or.inr
      · rintro (rfl | hm)
        · exact absurd rfl hk
        · exact hm

/-- Filtering with a stronger predicate keeps no more elements. -/
theorem filter_length_mono {p q : String → Bool} (l : List String)
    (h : ∀ x, p x = true → q x = true) :
    (l.filter p).length ≤ (l.filter q).length := by
  induction l with
  | nil => simp
  | cons x rest ih =>
    rw [List.filter_cons, List.filter_cons]
    cases hp : p x with
    | true =>
      rw [h x hp]
      simpa using ih
    | false =>
      cases hq : q x with
      | true => simp; omega
      | false => simpa using ih

/-- Filtering with a strictly stronger predicate (failing on a present
element the weaker one keeps) keeps strictly fewer elements. -/
theorem filter_length_lt {p q : String → Bool} (l : List String)
    (h : ∀ x, p x = true → q x = true) (name : String) (hn : name ∈ l)
    (hp : p name = false) (hq : q name = true) :
    (l.filter p).length < (l.filter q).length := by
  induction l with
  | nil => exact absurd hn (List.not_mem_nil name)
  | cons x rest ih =>
    rw [List.filter_cons, List.filter_cons]
    rcases List.mem_cons.mp hn with rfl | hmem
    · rw [hp, hq]
      simp only [if_true, if_false, List.length_cons]
      have := filter_length_mono rest h
      simp only [Bool.false_eq_true, if_false] at *
      omega
    · cases hpx : p x with
      | true =>
        rw [h x hpx]
        simpa using ih hmem
      | false =>
        cases hqx : q x with
        | true =>
          have := ih hmem
          simp only [List.length_cons]
          simp
          omega
        | false => simpa using ih hmem

/-- The unvisited count never exceeds the map's size. -/
theorem unvisited_le (dfs : List (String × DerivedFactDef)) (v : List String) :
    unvisited dfs v ≤ dfs.length := by
  unfold unvisited
  calc ((dfs.map Prod.fst).dedup.filter (fun k => ¬ k ∈ v)).length
      ≤ (dfs.map Prod.fst).dedup.length := List.length_filter_le _ _
    _ ≤ (dfs.map Prod.fst).length := List.Sublist.length_le (List.dedup_sublist _)
    _ = dfs.length := List.length_map _ _

/-- Visiting more names leaves no more unvisited keys. -/
theorem unvisited_mono (dfs : List (String × DerivedFactDef)) (v v' : List String)
    (h : ∀ x ∈ v, x ∈ v') : unvisited dfs v' ≤ unvisited dfs v := by
  unfold unvisited
  refine filter_length_mono _ fun x hx => ?_
  simp only [decide_eq_true_eq] at hx ⊢
  exact fun hmem => hx (h x hmem)

/-- Marking an unvisited derived-fact key strictly shrinks the measure. -/
theorem unvisited_cons_lt (dfs : List (String × DerivedFactDef)) (v : List String)
    (name : String) (hk : (lookupA dfs name).isSome = true) (hv : name ∉ v) :
    unvisited dfs (name :: v) < unvisited dfs v := by
  unfold unvisited
  refine filter_length_lt _ ?_ name ?_ ?_ ?_
  · intro x hx
    simp only [decide_eq_true_eq] at hx ⊢
    intro hmem
    exact hx (List.mem_cons_of_mem _ hmem)
  · exact List.mem_dedup.mpr ((lookupA_isSome_iff _ _).mp hk)
  · simp
  · simpa using hv

/-- `Before` survives appending on the right. -/
theorem Before.append {o : List String} {a b : String} (t : List String)
    (h : Before o a b) : Before (o ++ t) a b := by
  obtain ⟨l1, l2, l3, rfl⟩ := h
  exact ⟨l1, l2, l3 ++ t, by simp⟩

/-- Appending `b` after a list containing `a` puts `a` before `b`. -/
theorem before_snoc {o : List String} {a : String} (b : String) (h : a ∈ o) :
    Before (o ++ [b]) a b := by
  obtain ⟨s, t, rfl⟩ := List.append_of_mem h
  exact ⟨s, t, [], by simp⟩

/-- Membership in `depsOf` under a successful lookup. -/
theorem mem_depsOf (dfs : List (String × DerivedFactDef)) (name : String)
    (df : DerivedFactDef) (hlk : lookupA dfs name = some df) (d : String) :
    d ∈ depsOf dfs name ↔ ∃ arg ∈ df.derivation.args, arg.fact ≠ "" ∧ arg.fact = d := by
  unfold depsOf
  rw [hlk]
  simp only [List.mem_map, List.mem_filter]
  constructor
  · rintro ⟨arg, ⟨hmem, hne⟩, rfl⟩
    exact ⟨arg, hmem, by simpa using hne, rfl⟩
  · rintro ⟨arg, hmem, hne, rfl⟩
    exact ⟨arg, ⟨hmem, by simpa using hne⟩, rfl⟩

/-- Full specification of `visit` under an acyclicity rank: the order only
grows by appending, the visited set only grows, the invariant is preserved,
the visited name lands in the order when it is a derived-fact key, new order
entries come from newly visited names, and no new "gray" names (visited keys
missing from the order) appear. -/
theorem visit_spec (dfs : List (String × DerivedFactDef)) (rank : String → Nat)
    (hrank : ∀ n d, d ∈ depsOf dfs n → (lookupA dfs d).isSome = true → rank d < rank n) :
    ∀ (fuel : Nat) (name : String) (v o v' o' : List String),
      visit dfs fuel name (v, o) = (v', o') →
      unvisited dfs v < fuel →
      (∀ g ∈ v, (lookupA dfs g).isSome = true → g ∉ o →
        (lookupA dfs name).isSome = true → rank name < rank g) →
      TopoInv dfs (v, o) →
      ((∃ t, o' = o ++ t)
       ∧ (∀ x ∈ v, x ∈ v')
       ∧ TopoInv dfs (v', o')
       ∧ name ∈ v'
       ∧ ((lookupA dfs name).isSome = true → name ∈ o')
       ∧ (∀ x ∈ o', x ∈ o ∨ x ∉ v)
       ∧ (∀ x ∈ v', (lookupA dfs x).isSome = true → x ∉ o' → x ∈ v ∧ x ∉ o)) := by
  intro fuel
  induction fuel with
  | zero =>
    intro name v o v' o' _ hfuel
    exact absurd hfuel (by omega)
  | succ fuel ih =>
    intro name v o v' o' heq hfuel hgray hinv
    rw [visit] at heq
    by_cases hv : name ∈ v
    · rw [if_pos hv] at heq
      cases heq
      refine ⟨⟨[], by simp⟩, fun x hx => hx, hinv, hv, ?_, fun x hx => Or.inl hx,
        fun x hx hk hxo => ⟨hx, hxo⟩⟩
      intro hk
      by_cases ho : name ∈ o
      · exact ho
      · exact absurd (hgray name hv hk ho hk) (lt_irrefl _)
    · rw [if_neg hv] at heq
      cases hlk : lookupA dfs name with
      | none =>
        rw [hlk] at heq
        dsimp only at heq
        cases heq
        obtain ⟨hnd, hsub, hkeys, hdeps⟩ := hinv
        refine ⟨⟨[], by simp⟩, fun x hx => List.mem_cons_of_mem _ hx,
          ⟨hnd, fun x hx => List.mem_cons_of_mem _ (hsub x hx), hkeys, hdeps⟩,
          List.mem_cons_self _ _, ?_, fun x hx => Or.inl hx, ?_⟩
        · intro hk
          simp at hk
        · intro x hx hk hxo
          rcases List.mem_cons.mp hx with rfl | hxv
          · rw [hlk] at hk
            simp at hk
          · exact ⟨hxv, hxo⟩
      | some df =>
        rw [hlk] at heq
        dsimp only at heq
        have hkeymem : (lookupA dfs name).isSome = true := by rw [hlk]; rfl
        have hfold : ∀ (args : List DerivationArg) (v0 o0 vf of : List String),
            args.foldl (fun st arg => if arg.fact ≠ "" then visit dfs fuel arg.fact st else st)
              (v0, o0) = (vf, of) →
            unvisited dfs v0 < fuel →
            (∀ arg ∈ args, arg.fact ≠ "" → (lookupA dfs arg.fact).isSome = true →
              ∀ g ∈ v0, (lookupA dfs g).isSome = true → g ∉ o0 → rank arg.fact < rank g) →
            TopoInv dfs (v0, o0) →
            ((∃ t, of = o0 ++ t)
             ∧ (∀ x ∈ v0, x ∈ vf)
             ∧ TopoInv dfs (vf, of)
             ∧ (∀ arg ∈ args, arg.fact ≠ "" → (lookupA dfs arg.fact).isSome = true →
                arg.fact ∈ of)
             ∧ (∀ x ∈ of, x ∈ o0 ∨ x ∉ v0)
             ∧ (∀ x ∈ vf, (lookupA dfs x).isSome = true → x ∉ of → x ∈ v0 ∧ x ∉ o0)) := by
          intro args
          induction args with
          | nil =>
            intro v0 o0 vf of hst hf hg hi
            rw [List.foldl_nil] at hst
            cases hst
            exact ⟨⟨[], by simp⟩, fun x hx => hx, hi, by simp, fun x hx => Or.inl hx,
              fun x hx hk hxo => ⟨hx, hxo⟩⟩
          | cons a rest iha =>
            intro v0 o0 vf of hst hf hg hi
            rw [List.foldl_cons] at hst
            by_cases ha : a.fact ≠ ""
            · rw [if_pos ha] at hst
              rcases h1 : visit dfs fuel a.fact (v0, o0) with ⟨v1, o1⟩
              rw [h1] at hst
              obtain ⟨⟨t1, ht1⟩, hsub1, hinv1, hmem1, hord1, hnew1, hgray1⟩ :=
                ih a.fact v0 o0 v1 o1 h1 hf
                  (fun g hg' hk' ho' hka => hg a (List.mem_cons_self _ _) ha hka g hg' hk' ho')
                  hi
              have hf1 : unvisited dfs v1 < fuel :=
                lt_of_le_of_lt (unvisited_mono dfs v0 v1 hsub1) hf
              have hg1 : ∀ arg ∈ rest, arg.fact ≠ "" → (lookupA dfs arg.fact).isSome = true →
                  ∀ g ∈ v1, (lookupA dfs g).isSome = true → g ∉ o1 →
                    rank arg.fact < rank g := by
                intro arg hm hne hka g hgv hk ho
                obtain ⟨hgv0, hgo0⟩ := hgray1 g hgv hk ho
                exact hg arg (List.mem_cons_of_mem _ hm) hne hka g hgv0 hk hgo0
              obtain ⟨⟨t2, ht2⟩, hsub2, hinv2, hord2, hnew2, hgray2⟩ :=
                iha v1 o1 vf of hst hf1 hg1 hinv1
              refine ⟨⟨t1 ++ t2, by rw [ht2, ht1, List.append_assoc]⟩,
                fun x hx => hsub2 x (hsub1 x hx), hinv2, ?_, ?_, ?_⟩
              · intro arg hm hne hka
                rcases List.mem_cons.mp hm with rfl | hmr
                · have hfo1 := hord1 hka
                  rw [ht2]
                  exact List.mem_append_left _ hfo1
                · exact hord2 arg hmr hne hka
              · intro x hx
                rcases hnew2 x hx with hxo1 | hxnv1
                · rcases hnew1 x hxo1 with hxo0 | hxnv0
                  · exact Or.inl hxo0
                  · exact Or.inr hxnv0
                · exact Or.inr (fun hxv0 => hxnv1 (hsub1 x hxv0))
              · intro x hx hk hxo
                obtain ⟨hx1, hxo1⟩ := hgray2 x hx hk hxo
                exact hgray1 x hx1 hk hxo1
            · rw [if_neg ha] at hst
              obtain ⟨he, hsub2, hinv2, hord2, hnew2, hgray2⟩ :=
                iha v0 o0 vf of hst hf
                  (fun arg hm => hg arg (List.mem_cons_of_mem _ hm)) hi
              refine ⟨he, hsub2, hinv2, ?_, hnew2, hgray2⟩
              intro arg hm hne hka
              rcases List.mem_cons.mp hm with rfl | hmr
              · exact absurd hne ha
              · exact hord2 arg hmr hne hka
        rcases hstf : (df.derivation.args.foldl
            (fun st arg => if arg.fact ≠ "" then visit dfs fuel arg.fact st else st)
            (name :: v, o)) with ⟨vf, of⟩
        rw [hstf] at heq
        dsimp only at heq
        rw [Prod.mk.injEq] at heq
        obtain ⟨heqv, heqo⟩ := heq
        subst heqv
        subst heqo
        have hfa : unvisited dfs (name :: v) < fuel := by
          have h1 := unvisited_cons_lt dfs v name hkeymem hv
          omega
        have hg0 : ∀ arg ∈ df.derivation.args, arg.fact ≠ "" →
            (lookupA dfs arg.fact).isSome = true →
            ∀ g ∈ name :: v, (lookupA dfs g).isSome = true → g ∉ o →
              rank arg.fact < rank g := by
          intro arg hm hne hka g hgv hk ho
          have hdep : arg.fact ∈ depsOf dfs name :=
            (mem_depsOf dfs name df hlk _).mpr ⟨arg, hm, hne, rfl⟩
          have hlt : rank arg.fact < rank name := hrank name arg.fact hdep hka
          rcases List.mem_cons.mp hgv with rfl | hgv'
          · exact hlt
          · exact lt_trans hlt (hgray g hgv' hk ho hkeymem)
        have hi0 : TopoInv dfs (name :: v, o) := by
          obtain ⟨hnd, hsub, hkeys, hdeps⟩ := hinv
          exact ⟨hnd, fun x hx => List.mem_cons_of_mem _ (hsub x hx), hkeys, hdeps⟩
        obtain ⟨⟨t1, ht1⟩, hsubf, hinvf, hordf, hnewf, hgrayf⟩ :=
          hfold df.derivation.args (name :: v) o vf of hstf hfa hg0 hi0
        have hnameof : name ∉ of := by
          intro hmem
          rcases hnewf name hmem with hno | hnv
          · exact hv (hinv.2.1 name hno)
          · exact hnv (List.mem_cons_self _ _)
        obtain ⟨hndf, hsubf2, hkeysf, hdepsf⟩ := hinvf
        refine ⟨⟨t1 ++ [name], by rw [ht1, List.append_assoc]⟩,
          fun x hx => hsubf x (List.mem_cons_of_mem _ hx), ?_,
          hsubf name (List.mem_cons_self _ _),
          fun _ => List.mem_append_right _ (List.mem_singleton.mpr rfl), ?_, ?_⟩
        · refine ⟨?_, ?_, ?_, ?_⟩
          · rw [List.nodup_append]
            refine ⟨hndf, List.nodup_singleton _, fun x hx hx' => ?_⟩
            rw [List.mem_singleton] at hx'
            subst hx'
            exact hnameof hx
          · intro x hx
            rcases List.mem_append.mp hx with hx1 | hx2
            · exact hsubf2 x hx1
            · rw [List.mem_singleton] at hx2
              rw [hx2]
              exact hsubf name (List.mem_cons_self _ _)
          · intro x hx
            rcases List.mem_append.mp hx with hx1 | hx2
            · exact hkeysf x hx1
            · rw [List.mem_singleton] at hx2
              subst hx2
              exact hkeymem
          · intro x hx d hd hdk
            rcases List.mem_append.mp hx with hx1 | hx2
            · obtain ⟨hd1, hb1⟩ := hdepsf x hx1 d hd hdk
              exact ⟨List.mem_append_left _ hd1, hb1.append _⟩
            · rw [List.mem_singleton] at hx2
              subst hx2
              obtain ⟨arg, hm, hne, heqd⟩ := (mem_depsOf dfs x df hlk d).mp hd
              subst heqd
              have hdo : arg.fact ∈ of := hordf arg hm hne hdk
              exact ⟨List.mem_append_left _ hdo, before_snoc _ hdo⟩
        · intro x hx
          rcases List.mem_append.mp hx with hx1 | hx2
          · rcases hnewf x hx1 with hxo | hxnv
            · exact Or.inl hxo
            · exact Or.inr (fun hxv => hxnv (List.mem_cons_of_mem _ hxv))
          · rw [List.mem_singleton] at hx2
            subst hx2
            exact Or.inr hv
        · intro x hx hk hxo
          have hxof : x ∉ of := fun hmm => hxo (List.mem_append_left _ hmm)
          obtain ⟨hx1, hxo1⟩ := hgrayf x hx hk hxof
          rcases List.mem_cons.mp hx1 with rfl | hxv
          · exact absurd (List.mem_append_right _ (List.mem_singleton.mpr rfl)) hxo
          · exact ⟨hxv, hxo1⟩

/-- The outer loop of `topoSort`, specified: starting from a gray-free
invariant state, the invariant and gray-freeness persist and every processed
derived-fact key lands in the order. -/
theorem topoFold_spec (dfs : List (String × DerivedFactDef)) (rank : String → Nat)
    (hrank : ∀ n d, d ∈ depsOf dfs n → (lookupA dfs d).isSome = true → rank d < rank n) :
    ∀ (names : List String) (v o vf of : List String),
      names.foldl (fun st n => visit dfs (dfs.length + 1) n st) (v, o) = (vf, of) →
      TopoInv dfs (v, o) →
      (∀ x ∈ v, (lookupA dfs x).isSome = true → x ∈ o) →
      (TopoInv dfs (vf, of)
       ∧ (∃ t, of = o ++ t)
       ∧ (∀ x ∈ vf, (lookupA dfs x).isSome = true → x ∈ of)
       ∧ (∀ n ∈ names, (lookupA dfs n).isSome = true → n ∈ of)) := by
  intro names
  induction names with
  | nil =>
    intro v o vf of hst hinv hempty
    rw [List.foldl_nil] at hst
    cases hst
    exact ⟨hinv, ⟨[], by simp⟩, hempty, fun n hn => absurd hn (List.not_mem_nil n)⟩
  | cons n rest ihn =>
    intro v o vf of hst hinv hempty
    rw [List.foldl_cons] at hst
    rcases h1 : visit dfs (dfs.length + 1) n (v, o) with ⟨v1, o1⟩
    rw [h1] at hst
    have hfuel : unvisited dfs v < dfs.length + 1 := by
      have := unvisited_le dfs v
      omega
    obtain ⟨⟨t1, ht1⟩, hsub1, hinv1, hmem1, hord1, hnew1, hgray1⟩ :=
      visit_spec dfs rank hrank (dfs.length + 1) n v o v1 o1 h1 hfuel
        (fun g hgv hk hgo _ => absurd (hempty g hgv hk) hgo) hinv
    have hempty1 : ∀ x ∈ v1, (lookupA dfs x).isSome = true → x ∈ o1 := by
      intro x hx hk
      by_cases ho : x ∈ o1
      · exact ho
      · obtain ⟨hxv, hxo⟩ := hgray1 x hx hk ho
        exact absurd (hempty x hxv hk) hxo
    obtain ⟨hinvf, ⟨t2, ht2⟩, hemptyf, hcov⟩ := ihn v1 o1 vf of hst hinv1 hempty1
    refine ⟨hinvf, ⟨t1 ++ t2, by rw [ht2, ht1, List.append_assoc]⟩, hemptyf, ?_⟩
    intro m hm hk
    rcases List.mem_cons.mp hm with rfl | hmr
    · rw [ht2]
      exact List.mem_append_left _ (hord1 hk)
    · exact hcov m hmr hk

/-- Claim C6: for every acyclic derived-fact graph — acyclicity witnessed by
a rank function decreasing along fact-argument references, which exists
exactly for finite acyclic graphs — and every enumeration of its keys,
`topoSort` lists every derived fact exactly once (its order is
duplicate-free and contains precisely the derived-fact keys), every derived
fact appears after each derived fact its derivation references, and `Derive`
evaluates the facts in exactly that order. -/
theorem derive_topo_order_correct (c : Contract) (dfNames : List String)
    (facts : FactSet) (rank : String → Nat)
    (hrank : ∀ n d, d ∈ depsOf c.derivedFacts n →
      (lookupA c.derivedFacts d).isSome = true → rank d < rank n)
    (hnames : ∀ k ∈ c.derivedFacts.map Prod.fst, k ∈ dfNames) :
    (topoSort c.derivedFacts dfNames).Nodup
    ∧ (∀ k, k ∈ topoSort c.derivedFacts dfNames ↔
        (lookupA c.derivedFacts k).isSome = true)
    ∧ (∀ n ∈ topoSort c.derivedFacts dfNames, ∀ d ∈ depsOf c.derivedFacts n,
        (lookupA c.derivedFacts d).isSome = true →
        Before (topoSort c.derivedFacts dfNames) d n)
    ∧ deriveFacts c dfNames facts =
        deriveLoop c (topoSort c.derivedFacts dfNames) facts := by
  have hts : topoSort c.derivedFacts dfNames =
      (dfNames.foldl (fun st n => visit c.derivedFacts (c.derivedFacts.length + 1) n st)
        ([], [])).2 := rfl
  rcases hst : dfNames.foldl
      (fun st n => visit c.derivedFacts (c.derivedFacts.length + 1) n st) ([], [])
    with ⟨vf, of⟩
  rw [hst] at hts
  have hinv0 : TopoInv c.derivedFacts ([], []) :=
    ⟨List.nodup_nil, fun x hx => absurd hx (List.not_mem_nil x),
     fun x hx => absurd hx (List.not_mem_nil x),
     fun x hx => absurd hx (List.not_mem_nil x)⟩
  obtain ⟨⟨hnd, hsub, hkeys, hdeps⟩, _, hemptyf, hcov⟩ :=
    topoFold_spec c.derivedFacts rank hrank dfNames [] [] vf of hst hinv0
      (fun x hx => absurd hx (List.not_mem_nil x))
  rw [hts]
  refine ⟨hnd, fun k => ⟨hkeys k, fun hk => ?_⟩, fun n hn d hd hdk => (hdeps n hn d hd hdk).2,
    by unfold deriveFacts; rw [hts]⟩
  exact hcov k (hnames k ((lookupA_isSome_iff _ _).mp hk)) hk

/-- Witness for C6 on the concrete two-level graph `dagDfs` with its rank. -/
theorem derive_topo_order_correct_witness :
    (topoSort dagDfs ["d2", "d1"]).Nodup
    ∧ ("d1" ∈ topoSort dagDfs ["d2", "d1"] ↔ (lookupA dagDfs "d1").isSome = true)
    ∧ Before (topoSort dagDfs ["d2", "d1"]) "d1" "d2" := by
  have hrank : ∀ n d, d ∈ depsOf dagContract.derivedFacts n →
      (lookupA dagContract.derivedFacts d).isSome = true → dagRank d < dagRank n := by
    intro n d hd hk
    cases hlk : lookupA dagDfs n with
    | none =>
      unfold depsOf at hd
      rw [show lookupA dagContract.derivedFacts n = lookupA dagDfs n from rfl, hlk] at hd
      exact absurd hd (List.not_mem_nil d)
    | some df =>
      have hmem := lookupA_mem dagDfs n df hlk
      have hd' : d ∈ depsOf dagDfs n := hd
      rw [show (dagDfs : List (String × DerivedFactDef)) =
        [("d2", ⟨⟨"and", [⟨"d1", "", none⟩]⟩⟩),
         ("d1", ⟨⟨"equals", [⟨"b", "", none⟩, ⟨"", "", some (.vInt 1)⟩]⟩⟩)] from rfl]
        at hmem
      rcases List.mem_cons.mp hmem with heq1 | hmem2
      · have hn : n = "d2" := congrArg Prod.fst heq1
        subst hn
        have : d = "d1" := by
          have : depsOf dagDfs "d2" = ["d1"] := rfl
          rw [this] at hd'
          exact List.mem_singleton.mp hd'
        subst this
        decide
      · rcases List.mem_cons.mp hmem2 with heq2 | hmem3
        · have hn : n = "d1" := congrArg Prod.fst heq2
          subst hn
          have : d = "b" := by
            have : depsOf dagDfs "d1" = ["b"] := rfl
            rw [this] at hd'
            exact List.mem_singleton.mp hd'
          subst this
          exact absurd hk (by decide)
        · exact absurd hmem3 (List.not_mem_nil _)
  have h := derive_topo_order_correct dagContract ["d2", "d1"] [] dagRank hrank
    (by intro k hk; exact hk)
  exact ⟨h.1, h.2.1 "d1", h.2.2.1 "d2" (by decide) "d1" (by decide) (by decide)⟩

end Covenant
